import Mathlib

/-!
Verification of the open-addressing hash table in `src/ht.h`.

The C++ template `HashTable<K,V,Prober,Hash,KEqual>` is shallowly embedded:
slots (`HashItem*`) become `Option (HashItem K V)`, the backing vector
becomes a `List`, thrown exceptions become `Except HTError`, `size_t`
arithmetic becomes `Nat` (all values stay far below 2^64, and every index is
reduced `% m` before use, exactly as in the source), and the `double`
load-factor computation is modelled exactly over `ℚ`.  The prober hierarchy
(`LinearProber`, `DoubleHashProber`) is embedded as a step function
`pstep : start → m → key → probeIndex → slot`, matching
`Prober::init(start, m, key)` followed by repeated `next()` calls, which
yield exactly the candidates for probe indices `0, 1, …, m-1` and then
`npos`.
-/

set_option maxHeartbeats 1000000
set_option linter.unusedSectionVars false
set_option linter.unusedVariables false

namespace HTVerify

/-- Mirrors `HashTable::HashItem` (`src/ht.h:119-124`): a stored key/value
`item` pair together with the tombstone flag `deleted`. -/
structure HashItem (K V : Type) where
  key : K
  val : V
  deleted : Bool
deriving DecidableEq, Repr

/-- The state of a `HashTable` object: the backing array `table_` (a null
pointer becomes `none`), the capacity-schedule index `mIndex_`, and the two
counters `elementCount_` and `deletedCount_` (`src/ht.h:155-164`). -/
structure HashTableState (K V : Type) where
  table : List (Option (HashItem K V))
  mIndex : Nat
  elementCount : Nat
  deletedCount : Nat
deriving DecidableEq, Repr

/-- The exceptions thrown by `src/ht.h`: `logic_error("HashTable full")`,
`logic_error("No more primes to grow to")`, the out-of-bounds write
`table_[npos]` in `resize` (undefined behaviour in C++, modelled as a
distinguished error), and `out_of_range("Bad key")` from `at`. -/
inductive HTError where
  | full
  | schedule
  | oob
  | badKey
deriving DecidableEq, Repr

/-- Decidable equality of run results, for evaluating the model on concrete
inputs. -/
instance {ε α : Type} [DecidableEq ε] [DecidableEq α] :
    DecidableEq (Except ε α) := fun a b =>
  match a, b with
  | .error e, .error e' =>
    if h : e = e' then .isTrue (by rw [h])
    else .isFalse (by intro hc; injection hc; contradiction)
  | .error _, .ok _ => .isFalse (by intro hc; cases hc)
  | .ok _, .error _ => .isFalse (by intro hc; cases hc)
  | .ok a', .ok b' =>
    if h : a' = b' then .isTrue (by rw [h])
    else .isFalse (by intro hc; injection hc; contradiction)

/-- `HashTable::CAPACITIES` (`src/ht.h:172-179`). -/
def CAPACITIES : List Nat :=
  [11, 23, 47, 97, 197, 397, 797, 1597,
   3203, 6421, 12853, 25717, 51437, 102877,
   205759, 411527, 823117, 1646237, 3292489,
   6584983, 13169977, 26339969, 52679969,
   105359969, 210719881, 421439783, 842879579,
   1685759167]

/-- `DoubleHashProber::DOUBLE_HASH_MOD_VALUES` (`src/ht.h:90-96`). -/
def DOUBLE_HASH_MOD_VALUES : List Nat :=
  [7, 19, 43, 89, 193, 389, 787, 1583, 3191, 6397,
   12841, 25703, 51431, 102871, 205721, 411503, 823051,
   1646221, 3292463, 6584957, 13169963, 26339921,
   52679927, 105359939, 210719881, 421439749, 842879563,
   1685759113]

/-- Loop body of `DoubleHashProber::findModulusToUseFromTableSize`
(`src/ht.h:62-67`): scan the modulus list, remembering the last value seen,
stopping at the first entry that is not `< currTableSize`. -/
def findModulusGo (ts : Nat) : List Nat → Nat → Nat
  | [], acc => acc
  | v :: rest, acc => if v < ts then findModulusGo ts rest v else acc

/-- `DoubleHashProber::findModulusToUseFromTableSize` (`src/ht.h:62-67`):
`modulus` starts at `DOUBLE_HASH_MOD_VALUES[0]` and is overwritten while the
scanned entries stay below the table size. -/
def findModulus (ts : Nat) : Nat :=
  findModulusGo ts DOUBLE_HASH_MOD_VALUES (DOUBLE_HASH_MOD_VALUES.headD 7)

/-- `dhstep_` as computed by `DoubleHashProber::init` (`src/ht.h:73-77`):
`modulus - (h2(key) % modulus)`, for the secondary hash value `h2v`. -/
def dhStepOf (h2v ts : Nat) : Nat :=
  findModulus ts - h2v % findModulus ts

/-- `LinearProber::next` (`src/ht.h:40-46`) as a function of the probe index:
candidate `i` is `(start + i) % m`. -/
def linStep {K : Type} : Nat → Nat → K → Nat → Nat :=
  fun start m _ i => (start + i) % m

/-- `DoubleHashProber::next` (`src/ht.h:79-85`) as a function of the probe
index: candidate `i` is `(start + i * dhstep_) % m`, with `dhstep_` from
`init` applied to the secondary hash of the key. -/
def dhProbeStep {K : Type} (h2 : K → Nat) : Nat → Nat → K → Nat → Nat :=
  fun start m k i => (start + i * dhStepOf (h2 k) m) % m

/-- The current capacity `CAPACITIES[mIndex_]`. -/
def capacity {K V : Type} (st : HashTableState K V) : Nat :=
  CAPACITIES.getD st.mIndex 0

/-- Reading `table_[i]`; out-of-range reads yield `none` (the invariants below
keep every used index in range). -/
def slotAt {K V : Type} (st : HashTableState K V) (i : Nat) :
    Option (HashItem K V) :=
  st.table.getD i none

/-- A bounded probe driver: examine candidates `f i, f (i+1), …` while fuel
remains, returning the first hit.  This is the shape of the `while` loops in
`HashTable::probe` and `HashTable::resize`, whose probers return `npos` after
`m` candidates. -/
def probeAux (f : Nat → Option Nat) : Nat → Nat → Option Nat
  | 0, _ => none
  | n + 1, i =>
    match f i with
    | some x => some x
    | none => probeAux f n (i + 1)

/-- The candidate slot the prober yields at probe index `i` for key `k`: the
prober is initialised with start `hash_(key) % CAPACITIES[mIndex_]` and the
current capacity (`src/ht.h:286-287`). -/
def probeAt {K V : Type} (hashF : K → Nat)
    (pstep : Nat → Nat → K → Nat → Nat) (st : HashTableState K V) (k : K)
    (i : Nat) : Nat :=
  pstep (hashF k % capacity st) (capacity st) k i

/-- The body of the loop in `HashTable::probe` (`src/ht.h:289-300`) at probe
index `i`: stop with the candidate location if the slot there is null, or
holds a non-deleted item whose key matches; otherwise keep going. -/
def probeEntry {K V : Type} [DecidableEq K] (hashF : K → Nat)
    (pstep : Nat → Nat → K → Nat → Nat) (st : HashTableState K V) (k : K)
    (i : Nat) : Option Nat :=
  let loc := probeAt hashF pstep st k i
  match slotAt st loc with
  | none => some loc
  | some hi => if hi.deleted = false ∧ hi.key = k then some loc else none

/-- `HashTable::probe` (`src/ht.h:285-302`): run the prober from
`hash(key) % CAPACITIES[mIndex_]`; `none` is the `npos` result. -/
def probeLoc {K V : Type} [DecidableEq K] (hashF : K → Nat)
    (pstep : Nat → Nat → K → Nat → Nat) (st : HashTableState K V) (k : K) :
    Option Nat :=
  probeAux (probeEntry hashF pstep st k) (capacity st) 0

/-- `HashTable::find` (`src/ht.h:252-258`): null on `npos` or an empty slot,
otherwise the stored item pair. -/
def find {K V : Type} [DecidableEq K] (hashF : K → Nat)
    (pstep : Nat → Nat → K → Nat → Nat) (st : HashTableState K V) (k : K) :
    Option (K × V) :=
  match probeLoc hashF pstep st k with
  | none => none
  | some loc => (slotAt st loc).map fun hi => (hi.key, hi.val)

/-- `HashTable::at` (`src/ht.h:276-282`): like find, but
`throw std::out_of_range("Bad key")` when `internalFind` yields null. -/
def atVal {K V : Type} [DecidableEq K] (hashF : K → Nat)
    (pstep : Nat → Nat → K → Nat → Nat) (st : HashTableState K V) (k : K) :
    Except HTError V :=
  match probeLoc hashF pstep st k with
  | none => .error .badKey
  | some loc =>
    match slotAt st loc with
    | none => .error .badKey
    | some hi => .ok hi.val

/-- The statement `ht[k] = v` under `src/ht.h:144`: `operator[]` forwards to
`at(key)`, which throws on a missing key; on success the assignment writes
the value through the returned reference (`item.second`). -/
def bracketAssign {K V : Type} [DecidableEq K] (hashF : K → Nat)
    (pstep : Nat → Nat → K → Nat → Nat) (st : HashTableState K V) (k : K)
    (v : V) : Except HTError (HashTableState K V) :=
  match probeLoc hashF pstep st k with
  | none => .error .badKey
  | some loc =>
    match slotAt st loc with
    | none => .error .badKey
    | some hi =>
      .ok { st with table := st.table.set loc (some ⟨hi.key, v, hi.deleted⟩) }

/-- The placement part of `HashTable::insert` (`src/ht.h:215-229`): probe,
throw `HashTable full` on `npos`, then fill an empty slot, revive a deleted
slot, or overwrite the value (`item.second`) of a matching live slot. -/
def insertPlace {K V : Type} [DecidableEq K] (hashF : K → Nat)
    (pstep : Nat → Nat → K → Nat → Nat) (st : HashTableState K V)
    (p : K × V) : Except HTError (HashTableState K V) :=
  match probeLoc hashF pstep st p.1 with
  | none => .error .full
  | some loc =>
    match slotAt st loc with
    | none =>
      .ok { st with
            table := st.table.set loc (some ⟨p.1, p.2, false⟩)
            elementCount := st.elementCount + 1 }
    | some hi =>
      if hi.deleted then
        .ok { st with
              table := st.table.set loc (some ⟨p.1, p.2, false⟩)
              elementCount := st.elementCount + 1
              deletedCount := st.deletedCount - 1 }
      else
        .ok { st with
              table := st.table.set loc (some ⟨hi.key, p.2, hi.deleted⟩) }

/-- One iteration of the reinsertion loop in `HashTable::resize`
(`src/ht.h:315-328`) at probe index `i`: skip non-null slots, stop at the
first null one (`while (loc != npos && table_[loc] != nullptr)`). -/
def placeEntry {K V : Type} (hashF : K → Nat)
    (pstep : Nat → Nat → K → Nat → Nat)
    (tbl : List (Option (HashItem K V))) (m : Nat) (k : K) (i : Nat) :
    Option Nat :=
  let loc := pstep (hashF k % m) m k i
  match tbl.getD loc none with
  | none => some loc
  | some _ => none

/-- The slot `resize` writes a reinserted entry to: the first empty candidate
of the probe sequence, or `none` when the prober reaches `npos` (in which
case the source writes `table_[npos]`, out of bounds). -/
def placeLoc {K V : Type} (hashF : K → Nat)
    (pstep : Nat → Nat → K → Nat → Nat)
    (tbl : List (Option (HashItem K V))) (m : Nat) (k : K) : Option Nat :=
  probeAux (placeEntry hashF pstep tbl m k) m 0

/-- Processing of one old-table slot by `HashTable::resize`
(`src/ht.h:315-328`): null and deleted entries are dropped, live entries are
re-probed with the new capacity and written to the first empty slot, bumping
`elementCount_`. -/
def resizeStep {K V : Type} (hashF : K → Nat)
    (pstep : Nat → Nat → K → Nat → Nat)
    (acc : Except HTError (HashTableState K V))
    (s : Option (HashItem K V)) : Except HTError (HashTableState K V) :=
  match acc with
  | .error e => .error e
  | .ok cur =>
    match s with
    | none => .ok cur
    | some hi =>
      if hi.deleted then .ok cur
      else
        match placeLoc hashF pstep cur.table (capacity cur) hi.key with
        | none => .error .oob
        | some loc =>
          .ok { cur with
                table := cur.table.set loc (some hi)
                elementCount := cur.elementCount + 1 }

/-- `HashTable::resize` (`src/ht.h:305-329`): error if the capacity schedule
is exhausted, otherwise bump `mIndex_`, start from an all-null table with
zeroed counters, and fold the reinsertion loop over the old table. -/
def resize {K V : Type} (hashF : K → Nat)
    (pstep : Nat → Nat → K → Nat → Nat) (st : HashTableState K V) :
    Except HTError (HashTableState K V) :=
  if CAPACITIES.length ≤ st.mIndex + 1 then .error .schedule
  else
    st.table.foldl (resizeStep hashF pstep)
      (.ok { table := List.replicate (CAPACITIES.getD (st.mIndex + 1) 0) none,
             mIndex := st.mIndex + 1, elementCount := 0, deletedCount := 0 })

/-- The load factor computed by `HashTable::insert` (`src/ht.h:230`):
`double(elementCount_) / CAPACITIES[mIndex_]`, modelled exactly as the
rational `elementCount / capacity` (`mkRat e c` equals `(e : ℚ) / (c : ℚ)`,
see `loadFactor_eq_div` below). -/
def loadFactor (e cap : Nat) : ℚ := mkRat e cap

/-- `HashTable::insert` (`src/ht.h:214-232`): placement followed by the
load-factor check `lf > resizeAlpha_`, which triggers `resize`. -/
def insert {K V : Type} [DecidableEq K] (hashF : K → Nat)
    (pstep : Nat → Nat → K → Nat → Nat) (alpha : ℚ)
    (st : HashTableState K V) (p : K × V) :
    Except HTError (HashTableState K V) :=
  match insertPlace hashF pstep st p with
  | .error e => .error e
  | .ok st1 =>
    if loadFactor st1.elementCount (capacity st1) > alpha then
      resize hashF pstep st1
    else .ok st1

/-- `HashTable::remove` (`src/ht.h:235-242`): `internalFind`, then tombstone
the slot and adjust both counters when a live entry was found; otherwise do
nothing. -/
def remove {K V : Type} [DecidableEq K] (hashF : K → Nat)
    (pstep : Nat → Nat → K → Nat → Nat) (st : HashTableState K V) (k : K) :
    HashTableState K V :=
  match probeLoc hashF pstep st k with
  | none => st
  | some loc =>
    match slotAt st loc with
    | none => st
    | some hi =>
      if hi.deleted then st
      else
        { st with
          table := st.table.set loc (some ⟨hi.key, hi.val, true⟩)
          elementCount := st.elementCount - 1
          deletedCount := st.deletedCount + 1 }

/-- The state built by the `HashTable` constructor (`src/ht.h:186-196`):
`CAPACITIES[0]` null slots, zeroed counters, schedule index 0. -/
def initState (K V : Type) : HashTableState K V :=
  { table := List.replicate (CAPACITIES.getD 0 0) none,
    mIndex := 0, elementCount := 0, deletedCount := 0 }

/-- A client operation on the table. -/
inductive Op (K V : Type) where
  | insert (p : K × V)
  | remove (k : K)
deriving DecidableEq, Repr

/-- Run a sequence of operations, stopping at the first thrown exception. -/
def runOps {K V : Type} [DecidableEq K] (hashF : K → Nat)
    (pstep : Nat → Nat → K → Nat → Nat) (alpha : ℚ)
    (st : HashTableState K V) : List (Op K V) →
    Except HTError (HashTableState K V)
  | [] => .ok st
  | .insert p :: rest =>
    match insert hashF pstep alpha st p with
    | .ok st' => runOps hashF pstep alpha st' rest
    | .error e => .error e
  | .remove k :: rest => runOps hashF pstep alpha (remove hashF pstep st k) rest

/-- The reference model of a sequence of operations, threading the map it
denotes: each insert binds its key, each remove clears it. -/
def mdlFrom {K V : Type} [DecidableEq K] (A : K → Option V) :
    List (Op K V) → K → Option V
  | [], k => A k
  | .insert p :: rest, k =>
    mdlFrom (fun k' => if p.1 = k' then some p.2 else A k') rest k
  | .remove k0 :: rest, k =>
    mdlFrom (fun k' => if k0 = k' then none else A k') rest k

/-- The value the most recent surviving insert of `k` bound, if any. -/
def mdl {K V : Type} [DecidableEq K] (ops : List (Op K V)) (k : K) :
    Option V :=
  mdlFrom (fun _ => none) ops k

/-- Some slot holds a live (non-tombstone) entry `(k, v)`. -/
def HasVal {K V : Type} (st : HashTableState K V) (k : K) (v : V) : Prop :=
  ∃ i, slotAt st i = some ⟨k, v, false⟩

/-- The key of the live entry at slot `i`, if slot `i` holds one. -/
def liveKeyAt {K V : Type} (st : HashTableState K V) (i : Nat) : Option K :=
  match slotAt st i with
  | some hi => if hi.deleted then none else some hi.key
  | none => none

/-- Number of live entries in a backing array. -/
def countLive {K V : Type} (tbl : List (Option (HashItem K V))) : Nat :=
  tbl.countP fun s =>
    match s with
    | some hi => !hi.deleted
    | none => false

/-- Number of tombstones in a backing array. -/
def countDeleted {K V : Type} (tbl : List (Option (HashItem K V))) : Nat :=
  tbl.countP fun s =>
    match s with
    | some hi => hi.deleted
    | none => false

/-- The probe sequence for `k` reaches slot `i` before any empty slot: some
probe index `t` lands on `i` and every earlier candidate slot is non-null. -/
def Reach {K V : Type} (hashF : K → Nat)
    (pstep : Nat → Nat → K → Nat → Nat) (st : HashTableState K V) (k : K)
    (i : Nat) : Prop :=
  ∃ t, t < capacity st ∧ probeAt hashF pstep st k t = i ∧
    ∀ u, u < t → slotAt st (probeAt hashF pstep st k u) ≠ none

/-- The representation invariant of a `HashTable` state: the backing array
has exactly the scheduled capacity, the schedule index is in range, live keys
are pairwise distinct, every live entry is reachable by its own probe
sequence without crossing an empty slot, and the counters agree with the
array. -/
def INV {K V : Type} (hashF : K → Nat)
    (pstep : Nat → Nat → K → Nat → Nat) (st : HashTableState K V) : Prop :=
  st.table.length = capacity st ∧
  st.mIndex < CAPACITIES.length ∧
  (∀ i j k, liveKeyAt st i = some k → liveKeyAt st j = some k → i = j) ∧
  (∀ i k, liveKeyAt st i = some k → Reach hashF pstep st k i) ∧
  st.elementCount = countLive st.table ∧
  st.deletedCount = countDeleted st.table

/-! ### Basic facts about the embedded constants -/

/-- The modelled load factor is exactly the real-division load factor of the
source, `double(elementCount_) / CAPACITIES[mIndex_]`, over `ℚ`. -/
theorem loadFactor_eq_div (e cap : Nat) :
    loadFactor e cap = (e : ℚ) / (cap : ℚ) := by
  simp [loadFactor, Rat.mkRat_eq_div]

theorem CAPACITIES_length : CAPACITIES.length = 28 := by decide

/-- Every scheduled capacity is positive. -/
theorem CAPACITIES_pos : ∀ i < CAPACITIES.length, 0 < CAPACITIES.getD i 0 := by
  decide

/-- The capacity schedule is strictly increasing. -/
theorem CAPACITIES_strict :
    ∀ i < CAPACITIES.length, i + 1 < CAPACITIES.length →
      CAPACITIES.getD i 0 < CAPACITIES.getD (i + 1) 0 := by
  decide

/-- Every scheduled capacity exceeds the smallest double-hash modulus 7. -/
theorem CAPACITIES_gt7 : ∀ i < CAPACITIES.length, 7 < CAPACITIES.getD i 0 := by
  decide

/-! ### The probe driver -/

theorem probeAux_eq_some_iff (f : Nat → Option Nat) :
    ∀ (n i : Nat) (x : Nat),
      probeAux f n i = some x ↔
        ∃ j, i ≤ j ∧ j < i + n ∧ f j = some x ∧
          ∀ u, i ≤ u → u < j → f u = none := by
  intro n
  induction n with
  | zero =>
    intro i x
    simp only [probeAux]
    constructor
    · intro h; cases h
    · rintro ⟨j, h1, h2, _, _⟩; omega
  | succ n ih =>
    intro i x
    simp only [probeAux]
    cases hfi : f i with
    | some y =>
      simp only []
      constructor
      · intro h
        cases h
        exact ⟨i, le_refl i, by omega, hfi, fun u hu1 hu2 => by omega⟩
      · rintro ⟨j, h1, h2, h3, h4⟩
        rcases Nat.eq_or_lt_of_le h1 with rfl | hlt
        · rw [hfi] at h3; exact h3
        · have := h4 i (le_refl i) hlt
          rw [hfi] at this; cases this
    | none =>
      simp only []
      rw [ih (i + 1) x]
      constructor
      · rintro ⟨j, h1, h2, h3, h4⟩
        exact ⟨j, by omega, by omega, h3, fun u hu1 hu2 => by
          rcases Nat.eq_or_lt_of_le hu1 with rfl | h
          · exact hfi
          · exact h4 u h hu2⟩
      · rintro ⟨j, h1, h2, h3, h4⟩
        have hij : i ≠ j := by
          rintro rfl; rw [hfi] at h3; cases h3
        exact ⟨j, by omega, by omega, h3,
          fun u hu1 hu2 => h4 u (by omega) hu2⟩

theorem probeAux_eq_none_iff (f : Nat → Option Nat) :
    ∀ (n i : Nat),
      probeAux f n i = none ↔ ∀ j, i ≤ j → j < i + n → f j = none := by
  intro n
  induction n with
  | zero =>
    intro i
    simp only [probeAux]
    exact ⟨fun _ j h1 h2 => by omega, fun _ => trivial⟩
  | succ n ih =>
    intro i
    simp only [probeAux]
    cases hfi : f i with
    | some y =>
      simp only []
      constructor
      · intro h; cases h
      · intro h
        have := h i (le_refl i) (by omega)
        rw [hfi] at this; cases this
    | none =>
      simp only []
      rw [ih (i + 1)]
      constructor
      · intro h j h1 h2
        rcases Nat.eq_or_lt_of_le h1 with rfl | hlt
        · exact hfi
        · exact h j hlt (by omega)
      · intro h j h1 h2
        exact h j (by omega) (by omega)

/-- First-hit form: if candidate `j` hits and everything before it misses,
the driver returns the value at `j`. -/
theorem probeAux_eq_of_first (f : Nat → Option Nat) (n j x : Nat)
    (hj : j < n) (hfj : f j = some x) (hbefore : ∀ u, u < j → f u = none) :
    probeAux f n 0 = some x := by
  rw [probeAux_eq_some_iff]
  exact ⟨j, Nat.zero_le j, by omega, hfj, fun u _ hu => hbefore u hu⟩

/-! ### Slot and counter bookkeeping -/

theorem slotAt_set_self {K V : Type} (st : HashTableState K V) (loc : Nat)
    (a : Option (HashItem K V)) (h : loc < st.table.length) :
    (st.table.set loc a).getD loc none = a := by
  rw [List.getD_eq_getElem?_getD, List.getElem?_set_self', List.getElem?_eq_getElem h]
  rfl

theorem slotAt_set_ne {K V : Type} (st : HashTableState K V) (loc j : Nat)
    (a : Option (HashItem K V)) (h : loc ≠ j) :
    (st.table.set loc a).getD j none = st.table.getD j none := by
  rw [List.getD_eq_getElem?_getD, List.getD_eq_getElem?_getD,
    List.getElem?_set_ne h]

theorem slotAt_replicate {K V : Type} (n j : Nat) :
    (List.replicate (n : Nat) (none : Option (HashItem K V))).getD j none
      = none := by
  rw [List.getD_eq_getElem?_getD]
  rcases Nat.lt_or_ge j n with h | h
  · rw [List.getElem?_replicate, if_pos h]; rfl
  · rw [List.getElem?_eq_none (by simpa using h)]; rfl

theorem countP_set_aux {α : Type} (p : α → Bool) :
    ∀ (l : List α) (i : Nat) (a : α), i < l.length →
      l.countP p + (if p a then 1 else 0) =
        (l.set i a).countP p + (if p (l.getD i a) then 1 else 0) := by
  intro l
  induction l with
  | nil => intro i a h; simp at h
  | cons hd tl ih =>
    intro i a h
    cases i with
    | zero =>
      simp only [List.set, List.countP_cons, List.getD_cons_zero]
      omega
    | succ n =>
      simp only [List.set, List.countP_cons, List.getD_cons_succ]
      have := ih n a (by simpa using h)
      omega

theorem getD_default_irrel {α : Type} (l : List α) (i : Nat) (h : i < l.length)
    (a b : α) : l.getD i a = l.getD i b := by
  rw [List.getD_eq_getElem?_getD, List.getD_eq_getElem?_getD,
    List.getElem?_eq_getElem h]
  rfl

/-- Contribution of one slot to `countLive`. -/
def liveB {K V : Type} (s : Option (HashItem K V)) : Nat :=
  match s with
  | some hi => if hi.deleted then 0 else 1
  | none => 0

/-- Contribution of one slot to `countDeleted`. -/
def deadB {K V : Type} (s : Option (HashItem K V)) : Nat :=
  match s with
  | some hi => if hi.deleted then 1 else 0
  | none => 0

theorem ifP_eq_liveB {K V : Type} (s : Option (HashItem K V)) :
    (if (match s with
          | some hi => !hi.deleted
          | none => false) = true then 1 else 0) = liveB s := by
  cases s with
  | none => rfl
  | some hi => cases hd : hi.deleted <;> simp [liveB, hd]

theorem ifP_eq_deadB {K V : Type} (s : Option (HashItem K V)) :
    (if (match s with
          | some hi => hi.deleted
          | none => false) = true then 1 else 0) = deadB s := by
  cases s with
  | none => rfl
  | some hi => cases hd : hi.deleted <;> simp [deadB, hd]

theorem countLive_set {K V : Type} (st : HashTableState K V) (loc : Nat)
    (h : loc < st.table.length) (a : Option (HashItem K V)) :
    countLive (st.table.set loc a) + liveB (slotAt st loc) =
      countLive st.table + liveB a := by
  have heq := countP_set_aux
    (fun s : Option (HashItem K V) =>
      match s with
      | some hi => !hi.deleted
      | none => false) st.table loc a h
  rw [getD_default_irrel st.table loc h a none] at heq
  simp only [ifP_eq_liveB] at heq
  unfold countLive
  have : slotAt st loc = st.table.getD loc none := rfl
  rw [this]
  omega

theorem countDeleted_set {K V : Type} (st : HashTableState K V) (loc : Nat)
    (h : loc < st.table.length) (a : Option (HashItem K V)) :
    countDeleted (st.table.set loc a) + deadB (slotAt st loc) =
      countDeleted st.table + deadB a := by
  have heq := countP_set_aux
    (fun s : Option (HashItem K V) =>
      match s with
      | some hi => hi.deleted
      | none => false) st.table loc a h
  rw [getD_default_irrel st.table loc h a none] at heq
  simp only [ifP_eq_deadB] at heq
  unfold countDeleted
  have : slotAt st loc = st.table.getD loc none := rfl
  rw [this]
  omega

/-! ### Probe lemmas -/

section ProbeLemmas

variable {K V : Type} [DecidableEq K]
variable (hashF : K → Nat) (pstep : Nat → Nat → K → Nat → Nat)

theorem probeEntry_of_empty (st : HashTableState K V) (k : K) (i : Nat)
    (h : slotAt st (probeAt hashF pstep st k i) = none) :
    probeEntry hashF pstep st k i = some (probeAt hashF pstep st k i) := by
  simp only [probeEntry, h]

theorem probeEntry_of_liveMatch (st : HashTableState K V) (k : K) (i : Nat)
    (hi : HashItem K V) (h : slotAt st (probeAt hashF pstep st k i) = some hi)
    (hd : hi.deleted = false) (hk : hi.key = k) :
    probeEntry hashF pstep st k i = some (probeAt hashF pstep st k i) := by
  simp only [probeEntry, h, hd, hk, and_self, if_true]

theorem probeEntry_of_skip (st : HashTableState K V) (k : K) (i : Nat)
    (hi : HashItem K V) (h : slotAt st (probeAt hashF pstep st k i) = some hi)
    (hskip : ¬(hi.deleted = false ∧ hi.key = k)) :
    probeEntry hashF pstep st k i = none := by
  simp only [probeEntry, h, if_neg hskip]

theorem probeEntry_eq_some (st : HashTableState K V) (k : K) (i x : Nat)
    (h : probeEntry hashF pstep st k i = some x) :
    x = probeAt hashF pstep st k i ∧
      (slotAt st x = none ∨
        ∃ hi, slotAt st x = some hi ∧ hi.deleted = false ∧ hi.key = k) := by
  cases hs : slotAt st (probeAt hashF pstep st k i) with
  | none =>
    rw [probeEntry_of_empty hashF pstep st k i hs] at h
    injection h with h'
    subst h'
    exact ⟨rfl, Or.inl hs⟩
  | some hi =>
    by_cases hc : hi.deleted = false ∧ hi.key = k
    · rw [probeEntry_of_liveMatch hashF pstep st k i hi hs hc.1 hc.2] at h
      injection h with h'
      subst h'
      exact ⟨rfl, Or.inr ⟨hi, hs, hc.1, hc.2⟩⟩
    · rw [probeEntry_of_skip hashF pstep st k i hi hs hc] at h
      cases h

theorem probeEntry_ne_none_of_stop (st : HashTableState K V) (k : K) (i : Nat)
    (h : probeEntry hashF pstep st k i ≠ none) :
    slotAt st (probeAt hashF pstep st k i) ≠ none →
      ∃ hi, slotAt st (probeAt hashF pstep st k i) = some hi ∧
        hi.deleted = false ∧ hi.key = k := by
  intro hne
  cases hs : slotAt st (probeAt hashF pstep st k i) with
  | none => exact absurd hs hne
  | some hi =>
    by_cases hc : hi.deleted = false ∧ hi.key = k
    · exact ⟨hi, rfl, hc.1, hc.2⟩
    · exact absurd (probeEntry_of_skip hashF pstep st k i hi hs hc) h

/-- A non-`none` probe entry means the scanned slot was empty, since a
non-empty slot either matches (then the entry is `some`) or is skipped. -/
theorem probeEntry_eq_none_of_nonempty_nomatch (st : HashTableState K V)
    (k : K) (i : Nat)
    (h1 : slotAt st (probeAt hashF pstep st k i) ≠ none)
    (h2 : ∀ hi, slotAt st (probeAt hashF pstep st k i) = some hi →
      ¬(hi.deleted = false ∧ hi.key = k)) :
    probeEntry hashF pstep st k i = none := by
  cases hs : slotAt st (probeAt hashF pstep st k i) with
  | none => exact absurd hs h1
  | some hi => exact probeEntry_of_skip hashF pstep st k i hi hs (h2 hi hs)

theorem liveKeyAt_eq_some_iff (st : HashTableState K V) (i : Nat) (k : K) :
    liveKeyAt st i = some k ↔ ∃ v, slotAt st i = some ⟨k, v, false⟩ := by
  unfold liveKeyAt
  cases hs : slotAt st i with
  | none => simp
  | some hi =>
    obtain ⟨k', v', d'⟩ := hi
    cases d' <;> simp [HashItem.mk.injEq, eq_comm]

/-- Under the invariant, probing for the key of a live slot returns exactly
that slot. -/
theorem probeLoc_of_live (st : HashTableState K V)
    (hinv : INV hashF pstep st) (i : Nat) (k : K)
    (hk : liveKeyAt st i = some k) :
    probeLoc hashF pstep st k = some i := by
  obtain ⟨hlen, hm, huniq, hreach, _, _⟩ := hinv
  obtain ⟨t, ht, hpos, hbefore⟩ := hreach i k hk
  obtain ⟨v, hv⟩ := (liveKeyAt_eq_some_iff st i k).mp hk
  have hex : ∃ u, probeEntry hashF pstep st k u ≠ none := by
    refine ⟨t, ?_⟩
    rw [probeEntry_of_liveMatch hashF pstep st k t ⟨k, v, false⟩
      (by rw [hpos]; exact hv) rfl rfl]
    simp
  classical
  let j := Nat.find hex
  have hj : probeEntry hashF pstep st k j ≠ none := Nat.find_spec hex
  have hjle : j ≤ t := Nat.find_min' hex (by
    rw [probeEntry_of_liveMatch hashF pstep st k t ⟨k, v, false⟩
      (by rw [hpos]; exact hv) rfl rfl]
    simp)
  have hjmin : ∀ u, u < j → probeEntry hashF pstep st k u = none := by
    intro u hu
    have := Nat.find_min hex hu
    simpa using this
  obtain ⟨x, hx⟩ := Option.ne_none_iff_exists'.mp hj
  obtain ⟨hxpos, hxcase⟩ := probeEntry_eq_some hashF pstep st k j x hx
  have hxi : x = i := by
    rcases hxcase with hempty | ⟨hi', hs', hd', hk'⟩
    · rcases Nat.eq_or_lt_of_le hjle with rfl | hlt
      · rw [hxpos, hpos] at hempty
        rw [hv] at hempty
        cases hempty
      · exfalso
        exact (hbefore j hlt) (by rw [← hxpos]; exact hempty)
    · have : liveKeyAt st x = some k := by
        rw [liveKeyAt_eq_some_iff]
        exact ⟨hi'.val, by rw [hs', ← hk', ← hd']⟩
      have hik : liveKeyAt st i = some k := hk
      exact huniq x i k this hik
  rw [hxi] at hx
  exact probeAux_eq_of_first (probeEntry hashF pstep st k) (capacity st) j i
    (by omega) hx hjmin

/-- Whatever `probe` returns is either an empty slot or the live slot whose
key matches. -/
theorem probeLoc_spec (st : HashTableState K V) (k : K) (loc : Nat)
    (h : probeLoc hashF pstep st k = some loc) :
    (∃ j, j < capacity st ∧ loc = probeAt hashF pstep st k j) ∧
      (slotAt st loc = none ∨
        ∃ hi, slotAt st loc = some hi ∧ hi.deleted = false ∧ hi.key = k) := by
  rw [probeLoc, probeAux_eq_some_iff] at h
  obtain ⟨j, _, hj2, hj3, _⟩ := h
  obtain ⟨hpos, hcase⟩ := probeEntry_eq_some hashF pstep st k j loc hj3
  exact ⟨⟨j, by omega, hpos⟩, hcase⟩

/-- If no live slot holds key `k`, `find` returns null. -/
theorem find_eq_none_of_absent (st : HashTableState K V) (k : K)
    (h : ∀ v, ¬HasVal st k v) : find hashF pstep st k = none := by
  cases hp : probeLoc hashF pstep st k with
  | none => simp [find, hp]
  | some loc =>
    obtain ⟨_, hcase⟩ := probeLoc_spec hashF pstep st k loc hp
    rcases hcase with hempty | ⟨hi, hs, hd, hk⟩
    · simp [find, hp, hempty]
    · exfalso
      refine h hi.val ⟨loc, ?_⟩
      rw [hs, ← hk, ← hd]

/-- Under the invariant, `find` returns the live entry for `k`. -/
theorem find_of_hasVal (st : HashTableState K V)
    (hinv : INV hashF pstep st) (k : K) (v : V) (i : Nat)
    (hv : slotAt st i = some ⟨k, v, false⟩) :
    find hashF pstep st k = some (k, v) := by
  have hk : liveKeyAt st i = some k := by
    rw [liveKeyAt_eq_some_iff]; exact ⟨v, hv⟩
  simp [find, probeLoc_of_live hashF pstep st hinv i k hk, hv]

theorem capacity_pos {st : HashTableState K V}
    (hm : st.mIndex < CAPACITIES.length) : 0 < capacity st :=
  CAPACITIES_pos st.mIndex hm

/-- Under the invariant, any live slot for `k` is the slot probing returns. -/
theorem live_eq_probeLoc (st : HashTableState K V)
    (hinv : INV hashF pstep st) (k : K) (j loc : Nat)
    (hj : liveKeyAt st j = some k)
    (hloc : probeLoc hashF pstep st k = some loc) : j = loc := by
  have := probeLoc_of_live hashF pstep st hinv j k hj
  rw [this] at hloc
  injection hloc

/-- Reachability transfers to a state with the same geometry whose empty
slots are a subset of the old empty slots. -/
theorem reach_mono (st st' : HashTableState K V)
    (hcap : capacity st' = capacity st)
    (hmono : ∀ x, slotAt st x ≠ none → slotAt st' x ≠ none) (k : K) (i : Nat) :
    Reach hashF pstep st k i → Reach hashF pstep st' k i := by
  have hp : ∀ u, probeAt hashF pstep st' k u = probeAt hashF pstep st k u := by
    intro u; unfold probeAt; rw [hcap]
  rintro ⟨t, ht, hpos, hpre⟩
  exact ⟨t, by rw [hcap]; exact ht, by rw [hp]; exact hpos,
    fun u hu => by rw [hp]; exact hmono _ (hpre u hu)⟩

/-- The probe-index decomposition of a successful probe: the returned slot is
candidate `j`, every earlier candidate slot is non-null, and no earlier
candidate is a matching live slot. -/
theorem probeLoc_prefix (st : HashTableState K V) (k : K) (loc : Nat)
    (h : probeLoc hashF pstep st k = some loc) :
    ∃ j, j < capacity st ∧ probeAt hashF pstep st k j = loc ∧
      (∀ u, u < j → slotAt st (probeAt hashF pstep st k u) ≠ none) ∧
      (∀ u, u < j → ∀ hi, slotAt st (probeAt hashF pstep st k u) = some hi →
        ¬(hi.deleted = false ∧ hi.key = k)) := by
  rw [probeLoc, probeAux_eq_some_iff] at h
  obtain ⟨j, _, hj2, hj3, hj4⟩ := h
  obtain ⟨hpos, _⟩ := probeEntry_eq_some hashF pstep st k j loc hj3
  refine ⟨j, by omega, hpos.symm, ?_, ?_⟩
  · intro u hu hnone
    have : probeEntry hashF pstep st k u = some (probeAt hashF pstep st k u) :=
      probeEntry_of_empty hashF pstep st k u hnone
    rw [hj4 u (Nat.zero_le u) hu] at this
    cases this
  · intro u hu hi hs hmatch
    have : probeEntry hashF pstep st k u = some (probeAt hashF pstep st k u) :=
      probeEntry_of_liveMatch hashF pstep st k u hi hs hmatch.1 hmatch.2
    rw [hj4 u (Nat.zero_le u) hu] at this
    cases this

theorem liveKeyAt_congr (st st' : HashTableState K V) (x : Nat)
    (h : slotAt st' x = slotAt st x) : liveKeyAt st' x = liveKeyAt st x := by
  unfold liveKeyAt; rw [h]

/-- The invariant transfers across a state with the same geometry, the same
live keys at the same slots, the same empty slots, and matching counters. -/
theorem INV_of_pointwise (st st' : HashTableState K V)
    (hcap : capacity st' = capacity st)
    (hlen : st'.table.length = st.table.length)
    (hmidx : st'.mIndex = st.mIndex)
    (hlk : ∀ x, liveKeyAt st' x = liveKeyAt st x)
    (hne : ∀ x, slotAt st x ≠ none → slotAt st' x ≠ none)
    (hcl : st'.elementCount = st.elementCount)
    (hcd : st'.deletedCount = st.deletedCount)
    (hclv : countLive st'.table = countLive st.table)
    (hcdl : countDeleted st'.table = countDeleted st.table)
    (hinv : INV hashF pstep st) : INV hashF pstep st' := by
  obtain ⟨h1, h2, h3, h4, h5, h6⟩ := hinv
  refine ⟨?_, ?_, ?_, ?_, ?_, ?_⟩
  · rw [hlen, hcap, h1]
  · rw [hmidx]; exact h2
  · intro i j k hik hjk
    exact h3 i j k (by rw [← hlk i]; exact hik) (by rw [← hlk j]; exact hjk)
  · intro i k hik
    exact reach_mono hashF pstep st st' hcap hne k i
      (h4 i k (by rw [← hlk i]; exact hik))
  · rw [hcl, hclv]; exact h5
  · rw [hcd, hcdl]; exact h6

end ProbeLemmas

section Preservation

variable {K V : Type} [DecidableEq K]
variable (hashF : K → Nat) (pstep : Nat → Nat → K → Nat → Nat) (alpha : ℚ)

/-- Placement (`src/ht.h:215-229`) preserves the invariant, leaves the
schedule index unchanged, and binds `p.1` to `p.2` while leaving every other
key alone. -/
theorem insertPlace_preserves
    (Hp : ∀ s m k i, 0 < m → pstep s m k i < m)
    (st : HashTableState K V) (p : K × V) (st' : HashTableState K V)
    (hinv : INV hashF pstep st)
    (hok : insertPlace hashF pstep st p = .ok st') :
    INV hashF pstep st' ∧ st'.mIndex = st.mIndex ∧
      (∀ k v, HasVal st' k v ↔
        ((p.1 = k ∧ v = p.2) ∨ (p.1 ≠ k ∧ HasVal st k v))) := by
  obtain ⟨hlen, hmidx, huniq, hreach, hcl, hcd⟩ := hinv
  have hinv' : INV hashF pstep st := ⟨hlen, hmidx, huniq, hreach, hcl, hcd⟩
  have hm0 : 0 < capacity st := capacity_pos hmidx
  unfold insertPlace at hok
  split at hok
  · cases hok
  case _ loc hploc =>
    obtain ⟨j0, hj0m, hj0pos, hj0pre, hj0skip⟩ :=
      probeLoc_prefix hashF pstep st p.1 loc hploc
    have hlocm : loc < capacity st := by
      rw [← hj0pos]; exact Hp _ _ _ _ hm0
    have hloclen : loc < st.table.length := by rw [hlen]; exact hlocm
    split at hok
    case _ hs =>
      -- empty slot: the new entry is placed there
      injection hok with hok'
      subst hok'
      have hnolive : ∀ x, liveKeyAt st x = some p.1 → False := by
        intro x hx
        have hxl := live_eq_probeLoc hashF pstep st hinv' p.1 x loc hx hploc
        subst hxl
        rw [liveKeyAt_eq_some_iff] at hx
        obtain ⟨v, hv⟩ := hx
        rw [hs] at hv
        cases hv
      set A : Option (HashItem K V) := some ⟨p.1, p.2, false⟩ with hAdef
      set st1 : HashTableState K V :=
        { st with table := st.table.set loc A
                  elementCount := st.elementCount + 1 } with hst1
      have hcap : capacity st1 = capacity st := rfl
      have hpa : ∀ k u, probeAt hashF pstep st1 k u = probeAt hashF pstep st k u :=
        fun _ _ => rfl
      have hA : slotAt st1 loc = A := slotAt_set_self st loc A hloclen
      have hNe : ∀ x, x ≠ loc → slotAt st1 x = slotAt st x := by
        intro x hx
        exact slotAt_set_ne st loc x A (fun h => hx h.symm)
      have hmono : ∀ x, slotAt st x ≠ none → slotAt st1 x ≠ none := by
        intro x hx
        by_cases hxl : x = loc
        · subst hxl; rw [hA]; simp [hAdef]
        · rw [hNe x hxl]; exact hx
      have hlive1 : liveKeyAt st1 loc = some p.1 := by
        rw [liveKeyAt_eq_some_iff]
        exact ⟨p.2, hA⟩
      have hlk : ∀ x, x ≠ loc → liveKeyAt st1 x = liveKeyAt st x :=
        fun x hx => liveKeyAt_congr st st1 x (hNe x hx)
      have hkey1 : ∀ k, liveKeyAt st1 loc = some k → k = p.1 := by
        intro k hk
        rw [hlive1] at hk
        injection hk with hk'
        exact hk'.symm
      refine ⟨⟨?_, hmidx, ?_, ?_, ?_, ?_⟩, rfl, ?_⟩
      · show (st.table.set loc A).length = capacity st
        rw [List.length_set, hlen]
      · -- uniqueness
        intro i j k hik hjk
        by_cases hil : i = loc <;> by_cases hjl : j = loc
        · rw [hil, hjl]
        · subst hil
          have hkp := hkey1 k hik
          subst hkp
          exact absurd (by rw [← hlk j hjl]; exact hjk) (fun h => hnolive j h)
        · subst hjl
          have hkp := hkey1 k hjk
          subst hkp
          exact absurd (by rw [← hlk i hil]; exact hik) (fun h => hnolive i h)
        · exact huniq i j k (by rw [← hlk i hil]; exact hik)
            (by rw [← hlk j hjl]; exact hjk)
      · -- reachability
        intro i k hik
        by_cases hil : i = loc
        · subst hil
          have hkp := hkey1 k hik
          subst hkp
          refine ⟨j0, by rw [hcap]; exact hj0m, by rw [hpa]; exact hj0pos, ?_⟩
          intro u hu
          rw [hpa]
          exact hmono _ (hj0pre u hu)
        · exact reach_mono hashF pstep st st1 hcap hmono k i
            (hreach i k (by rw [← hlk i hil]; exact hik))
      · -- elementCount
        show st.elementCount + 1 = countLive (st.table.set loc A)
        have heq := countLive_set st loc hloclen A
        rw [hs] at heq
        have hA1 : liveB A = 1 := by rw [hAdef]; simp [liveB]
        have h0 : liveB (none : Option (HashItem K V)) = 0 := rfl
        rw [hA1, h0] at heq
        omega
      · -- deletedCount
        show st.deletedCount = countDeleted (st.table.set loc A)
        have heq := countDeleted_set st loc hloclen A
        rw [hs] at heq
        have hA0 : deadB A = 0 := by rw [hAdef]; simp [deadB]
        have h0 : deadB (none : Option (HashItem K V)) = 0 := rfl
        rw [hA0, h0] at heq
        omega
      · -- the bound keys
        intro k v
        constructor
        · rintro ⟨j, hj⟩
          by_cases hjl : j = loc
          · subst hjl
            rw [hA] at hj
            injection hj with hj'
            refine Or.inl ?_
            have h1 : p.1 = k := congrArg HashItem.key hj'
            have h2 : p.2 = v := congrArg HashItem.val hj'
            exact ⟨h1, h2.symm⟩
          · rw [hNe j hjl] at hj
            by_cases hpk : p.1 = k
            · subst hpk
              exact absurd ((liveKeyAt_eq_some_iff st j p.1).mpr ⟨v, hj⟩)
                (fun h => hnolive j h)
            · exact Or.inr ⟨hpk, ⟨j, hj⟩⟩
        · rintro (⟨hk, hv⟩ | ⟨hk, j, hj⟩)
          · subst hk; subst hv
            exact ⟨loc, hA⟩
          · refine ⟨j, ?_⟩
            have hjl : j ≠ loc := by
              rintro rfl
              rw [hs] at hj
              cases hj
            rw [hNe j hjl]
            exact hj
    case _ hi hs =>
      -- a non-null slot was returned by probe: it must be a live match
      have hmatch : hi.deleted = false ∧ hi.key = p.1 := by
        obtain ⟨_, hcase⟩ := probeLoc_spec hashF pstep st p.1 loc hploc
        rcases hcase with hempty | ⟨hi', hs', hd', hk'⟩
        · rw [hs] at hempty; cases hempty
        · rw [hs] at hs'
          injection hs' with he
          rw [← he] at hd' hk'
          exact ⟨hd', hk'⟩
      split at hok
      case _ hd =>
        exfalso
        rw [hmatch.1] at hd
        cases hd
      case _ hd =>
        -- live matching slot: value update in place
        injection hok with hok'
        subst hok'
        set B : Option (HashItem K V) := some ⟨hi.key, p.2, hi.deleted⟩
          with hBdef
        have hBval : B = some ⟨p.1, p.2, false⟩ := by
          rw [hBdef, hmatch.1, hmatch.2]
        set st1 : HashTableState K V :=
          { st with table := st.table.set loc B } with hst1
        have hcap : capacity st1 = capacity st := rfl
        have hB : slotAt st1 loc = B := slotAt_set_self st loc B hloclen
        have hNe : ∀ x, x ≠ loc → slotAt st1 x = slotAt st x := by
          intro x hx
          exact slotAt_set_ne st loc x B (fun h => hx h.symm)
        have hlivest : liveKeyAt st loc = some p.1 := by
          rw [liveKeyAt_eq_some_iff]
          refine ⟨hi.val, ?_⟩
          rw [hs, ← hmatch.1, ← hmatch.2]
        have hlive1 : liveKeyAt st1 loc = some p.1 := by
          rw [liveKeyAt_eq_some_iff]
          exact ⟨p.2, by rw [hB, hBval]⟩
        have hlk : ∀ x, liveKeyAt st1 x = liveKeyAt st x := by
          intro x
          by_cases hxl : x = loc
          · subst hxl; rw [hlive1, hlivest]
          · exact liveKeyAt_congr st st1 x (hNe x hxl)
        have hmono : ∀ x, slotAt st x ≠ none → slotAt st1 x ≠ none := by
          intro x hx
          by_cases hxl : x = loc
          · subst hxl; rw [hB, hBval]; simp
          · rw [hNe x hxl]; exact hx
        have hcntl : countLive st1.table = countLive st.table := by
          show countLive (st.table.set loc B) = countLive st.table
          have heq := countLive_set st loc hloclen B
          rw [hs] at heq
          have hB1 : liveB B = 1 := by rw [hBval]; simp [liveB]
          have hhi1 : liveB (some hi) = 1 := by simp [liveB, hmatch.1]
          rw [hB1, hhi1] at heq
          omega
        have hcntd : countDeleted st1.table = countDeleted st.table := by
          show countDeleted (st.table.set loc B) = countDeleted st.table
          have heq := countDeleted_set st loc hloclen B
          rw [hs] at heq
          have hB0 : deadB B = 0 := by rw [hBval]; simp [deadB]
          have hhi0 : deadB (some hi) = 0 := by simp [deadB, hmatch.1]
          rw [hB0, hhi0] at heq
          omega
        refine ⟨?_, rfl, ?_⟩
        · refine INV_of_pointwise hashF pstep st st1 hcap ?_ rfl hlk hmono
            rfl rfl hcntl hcntd hinv'
          show (st.table.set loc B).length = st.table.length
          exact List.length_set st.table loc B
        · intro k v
          constructor
          · rintro ⟨j, hj⟩
            by_cases hjl : j = loc
            · subst hjl
              rw [hB, hBval] at hj
              injection hj with hj'
              refine Or.inl ⟨congrArg HashItem.key hj',
                (congrArg HashItem.val hj').symm⟩
            · rw [hNe j hjl] at hj
              by_cases hpk : p.1 = k
              · subst hpk
                have : liveKeyAt st j = some p.1 :=
                  (liveKeyAt_eq_some_iff st j p.1).mpr ⟨v, hj⟩
                have := huniq j loc p.1 this hlivest
                exact absurd this hjl
              · exact Or.inr ⟨hpk, ⟨j, hj⟩⟩
          · rintro (⟨hk, hv⟩ | ⟨hk, j, hj⟩)
            · subst hk; subst hv
              exact ⟨loc, by rw [hB, hBval]⟩
            · refine ⟨j, ?_⟩
              have hjl : j ≠ loc := by
                rintro rfl
                rw [hs] at hj
                injection hj with hj'
                refine hk ?_
                rw [← hmatch.2, hj']
              rw [hNe j hjl]
              exact hj

end Preservation

section ResizeLemmas

variable {K V : Type} [DecidableEq K]
variable (hashF : K → Nat) (pstep : Nat → Nat → K → Nat → Nat)

/-- Live bindings stored in a list of slots. -/
def HasValL (l : List (Option (HashItem K V))) (k : K) (v : V) : Prop :=
  ∃ s ∈ l, s = some ⟨k, v, false⟩

theorem hasVal_iff_hasValL (st : HashTableState K V) (k : K) (v : V) :
    HasVal st k v ↔ HasValL st.table k v := by
  constructor
  · rintro ⟨i, hi⟩
    by_cases h : i < st.table.length
    · refine ⟨st.table.getD i none, ?_, hi⟩
      have he : st.table.getD i none = st.table[i] := by
        rw [List.getD_eq_getElem?_getD, List.getElem?_eq_getElem h]
        rfl
      rw [he]
      exact List.getElem_mem h
    · exfalso
      have he : st.table.getD i none = none := by
        rw [List.getD_eq_getElem?_getD, List.getElem?_eq_none (by omega)]
        rfl
      have : slotAt st i = none := he
      rw [this] at hi
      cases hi
  · rintro ⟨s, hsmem, rfl⟩
    rw [List.mem_iff_getElem?] at hsmem
    obtain ⟨n, hn⟩ := hsmem
    refine ⟨n, ?_⟩
    show st.table.getD n none = _
    rw [List.getD_eq_getElem?_getD, hn]
    rfl

theorem hasValL_append_one (l : List (Option (HashItem K V))) (x : Option (HashItem K V))
    (k : K) (v : V) :
    HasValL (l ++ [x]) k v ↔ (HasValL l k v ∨ x = some ⟨k, v, false⟩) := by
  unfold HasValL
  constructor
  · rintro ⟨s, hs, rfl⟩
    rw [List.mem_append, List.mem_singleton] at hs
    rcases hs with hs | rfl
    · exact Or.inl ⟨_, hs, rfl⟩
    · exact Or.inr rfl
  · rintro (⟨s, hs, rfl⟩ | rfl)
    · exact ⟨_, by rw [List.mem_append]; exact Or.inl hs, rfl⟩
    · exact ⟨_, by rw [List.mem_append, List.mem_singleton]; exact Or.inr rfl, rfl⟩

theorem placeEntry_of_empty (tbl : List (Option (HashItem K V))) (m : Nat)
    (k : K) (i : Nat)
    (h : tbl.getD (pstep (hashF k % m) m k i) none = none) :
    placeEntry hashF pstep tbl m k i = some (pstep (hashF k % m) m k i) := by
  simp only [placeEntry, h]

theorem placeEntry_of_filled (tbl : List (Option (HashItem K V))) (m : Nat)
    (k : K) (i : Nat) (hi : HashItem K V)
    (h : tbl.getD (pstep (hashF k % m) m k i) none = some hi) :
    placeEntry hashF pstep tbl m k i = none := by
  simp only [placeEntry, h]

theorem placeEntry_eq_some (tbl : List (Option (HashItem K V))) (m : Nat)
    (k : K) (i x : Nat) (h : placeEntry hashF pstep tbl m k i = some x) :
    x = pstep (hashF k % m) m k i ∧ tbl.getD x none = none := by
  cases hs : tbl.getD (pstep (hashF k % m) m k i) none with
  | none =>
    rw [placeEntry_of_empty hashF pstep tbl m k i hs] at h
    injection h with h'
    subst h'
    exact ⟨rfl, hs⟩
  | some hi =>
    rw [placeEntry_of_filled hashF pstep tbl m k i hi hs] at h
    cases h

theorem placeLoc_spec (tbl : List (Option (HashItem K V))) (m : Nat) (k : K)
    (loc : Nat) (h : placeLoc hashF pstep tbl m k = some loc) :
    ∃ j, j < m ∧ pstep (hashF k % m) m k j = loc ∧
      tbl.getD loc none = none ∧
      ∀ u, u < j → tbl.getD (pstep (hashF k % m) m k u) none ≠ none := by
  rw [placeLoc, probeAux_eq_some_iff] at h
  obtain ⟨j, _, hj2, hj3, hj4⟩ := h
  obtain ⟨hpos, hempt⟩ := placeEntry_eq_some hashF pstep tbl m k j loc hj3
  refine ⟨j, by omega, hpos.symm, hempt, ?_⟩
  intro u hu hnone
  have hcontra := placeEntry_of_empty hashF pstep tbl m k u hnone
  rw [hj4 u (Nat.zero_le u) hu] at hcontra
  cases hcontra

theorem countLive_append (l1 l2 : List (Option (HashItem K V))) :
    countLive (l1 ++ l2) = countLive l1 + countLive l2 := by
  unfold countLive
  rw [List.countP_append]

theorem countDeleted_append (l1 l2 : List (Option (HashItem K V))) :
    countDeleted (l1 ++ l2) = countDeleted l1 + countDeleted l2 := by
  unfold countDeleted
  rw [List.countP_append]

theorem countLive_replicate (n : Nat) :
    countLive (List.replicate n (none : Option (HashItem K V))) = 0 := by
  unfold countLive
  rw [List.countP_eq_zero]
  intro a ha
  rw [List.eq_of_mem_replicate ha]
  simp

theorem countDeleted_replicate (n : Nat) :
    countDeleted (List.replicate n (none : Option (HashItem K V))) = 0 := by
  unfold countDeleted
  rw [List.countP_eq_zero]
  intro a ha
  rw [List.eq_of_mem_replicate ha]
  simp

theorem countLive_singleton (x : Option (HashItem K V)) :
    countLive [x] = liveB x := by
  unfold countLive
  rw [List.countP_cons, List.countP_nil]
  simp only [ifP_eq_liveB]
  omega

theorem countDeleted_singleton (x : Option (HashItem K V)) :
    countDeleted [x] = deadB x := by
  unfold countDeleted
  rw [List.countP_cons, List.countP_nil]
  simp only [ifP_eq_deadB]
  omega

/-- Writing a live entry into the first empty probe slot of a fresh table
preserves the invariant and adds exactly that binding. -/
theorem place_preserves
    (Hp : ∀ s m k i, 0 < m → pstep s m k i < m)
    (cur : HashTableState K V) (hi : HashItem K V) (loc : Nat)
    (hinvc : INV hashF pstep cur)
    (hdel : hi.deleted = false)
    (hnolive : ∀ x, liveKeyAt cur x = some hi.key → False)
    (hploc : placeLoc hashF pstep cur.table (capacity cur) hi.key = some loc)
    (cur' : HashTableState K V)
    (hcur' : cur' = { cur with
                      table := cur.table.set loc (some hi)
                      elementCount := cur.elementCount + 1 }) :
    INV hashF pstep cur' ∧ cur'.mIndex = cur.mIndex ∧
      cur'.deletedCount = cur.deletedCount ∧
      countDeleted cur'.table = countDeleted cur.table ∧
      cur'.elementCount = cur.elementCount + 1 ∧
      (∀ k v, HasVal cur' k v ↔
        ((hi.key = k ∧ hi.val = v) ∨ HasVal cur k v)) := by
  obtain ⟨hlen, hmidx, huniq, hreach, hcl, hcd⟩ := hinvc
  have hinvc' : INV hashF pstep cur := ⟨hlen, hmidx, huniq, hreach, hcl, hcd⟩
  have hm0 : 0 < capacity cur := capacity_pos hmidx
  obtain ⟨j0, hj0m, hj0pos, hj0empty, hj0pre⟩ :=
    placeLoc_spec hashF pstep cur.table (capacity cur) hi.key loc hploc
  have hlocm : loc < capacity cur := by
    rw [← hj0pos]; exact Hp _ _ _ _ hm0
  have hloclen : loc < cur.table.length := by rw [hlen]; exact hlocm
  have hs : slotAt cur loc = none := hj0empty
  have hhi : (⟨hi.key, hi.val, false⟩ : HashItem K V) = hi := by
    rw [← hdel]
  subst hcur'
  set A : Option (HashItem K V) := some hi with hAdef
  set cur1 : HashTableState K V :=
    { cur with table := cur.table.set loc A
               elementCount := cur.elementCount + 1 } with hcur1
  have hcap : capacity cur1 = capacity cur := rfl
  have hpa : ∀ k u, probeAt hashF pstep cur1 k u = probeAt hashF pstep cur k u :=
    fun _ _ => rfl
  have hA : slotAt cur1 loc = A := slotAt_set_self cur loc A hloclen
  have hNe : ∀ x, x ≠ loc → slotAt cur1 x = slotAt cur x := by
    intro x hx
    exact slotAt_set_ne cur loc x A (fun h => hx h.symm)
  have hmono : ∀ x, slotAt cur x ≠ none → slotAt cur1 x ≠ none := by
    intro x hx
    by_cases hxl : x = loc
    · subst hxl; rw [hA]; simp [hAdef]
    · rw [hNe x hxl]; exact hx
  have hlive1 : liveKeyAt cur1 loc = some hi.key := by
    rw [liveKeyAt_eq_some_iff]
    exact ⟨hi.val, by rw [hA, hAdef, hhi]⟩
  have hlk : ∀ x, x ≠ loc → liveKeyAt cur1 x = liveKeyAt cur x :=
    fun x hx => liveKeyAt_congr cur cur1 x (hNe x hx)
  have hkey1 : ∀ k, liveKeyAt cur1 loc = some k → k = hi.key := by
    intro k hk
    rw [hlive1] at hk
    injection hk with hk'
    exact hk'.symm
  refine ⟨⟨?_, hmidx, ?_, ?_, ?_, ?_⟩, rfl, rfl, ?_, rfl, ?_⟩
  · show (cur.table.set loc A).length = capacity cur
    rw [List.length_set, hlen]
  · -- uniqueness
    intro i j k hik hjk
    by_cases hil : i = loc <;> by_cases hjl : j = loc
    · rw [hil, hjl]
    · subst hil
      have hkp := hkey1 k hik
      subst hkp
      exact absurd (by rw [← hlk j hjl]; exact hjk) (fun h => hnolive j h)
    · subst hjl
      have hkp := hkey1 k hjk
      subst hkp
      exact absurd (by rw [← hlk i hil]; exact hik) (fun h => hnolive i h)
    · exact huniq i j k (by rw [← hlk i hil]; exact hik)
        (by rw [← hlk j hjl]; exact hjk)
  · -- reachability
    intro i k hik
    by_cases hil : i = loc
    · subst hil
      have hkp := hkey1 k hik
      subst hkp
      refine ⟨j0, by rw [hcap]; exact hj0m, by rw [hpa]; exact hj0pos, ?_⟩
      intro u hu
      rw [hpa]
      exact hmono _ (hj0pre u hu)
    · exact reach_mono hashF pstep cur cur1 hcap hmono k i
        (hreach i k (by rw [← hlk i hil]; exact hik))
  · -- elementCount
    show cur.elementCount + 1 = countLive (cur.table.set loc A)
    have heq := countLive_set cur loc hloclen A
    rw [hs] at heq
    have hA1 : liveB A = 1 := by rw [hAdef]; simp [liveB, hdel]
    have h0 : liveB (none : Option (HashItem K V)) = 0 := rfl
    rw [hA1, h0] at heq
    omega
  · -- deletedCount consistency
    show cur.deletedCount = countDeleted (cur.table.set loc A)
    have heq := countDeleted_set cur loc hloclen A
    rw [hs] at heq
    have hA0 : deadB A = 0 := by rw [hAdef]; simp [deadB, hdel]
    have h0 : deadB (none : Option (HashItem K V)) = 0 := rfl
    rw [hA0, h0] at heq
    omega
  · -- table-level tombstone count unchanged
    show countDeleted (cur.table.set loc A) = countDeleted cur.table
    have heq := countDeleted_set cur loc hloclen A
    rw [hs] at heq
    have hA0 : deadB A = 0 := by rw [hAdef]; simp [deadB, hdel]
    have h0 : deadB (none : Option (HashItem K V)) = 0 := rfl
    rw [hA0, h0] at heq
    omega
  · -- the bound keys
    intro k v
    constructor
    · rintro ⟨j, hj⟩
      by_cases hjl : j = loc
      · subst hjl
        rw [hA, hAdef] at hj
        injection hj with hj'
        refine Or.inl ?_
        rw [hj']
        exact ⟨rfl, rfl⟩
      · rw [hNe j hjl] at hj
        exact Or.inr ⟨j, hj⟩
    · rintro (⟨hk, hv⟩ | ⟨j, hj⟩)
      · subst hk; subst hv
        exact ⟨loc, by rw [hA, hAdef, hhi]⟩
      · refine ⟨j, ?_⟩
        have hjl : j ≠ loc := by
          rintro rfl
          rw [hs] at hj
          cases hj
        rw [hNe j hjl]
        exact hj

theorem some_eq_live_iff (hi : HashItem K V) (hdel : hi.deleted = false)
    (k : K) (v : V) :
    (some hi = some (⟨k, v, false⟩ : HashItem K V)) ↔
      (hi.key = k ∧ hi.val = v) := by
  constructor
  · intro h
    injection h with h'
    rw [h']
    exact ⟨rfl, rfl⟩
  · rintro ⟨hk, hv⟩
    rw [← hk, ← hv, ← hdel]

theorem some_ne_live (hi : HashItem K V) (hdel : hi.deleted = true)
    (k : K) (v : V) :
    some hi ≠ some (⟨k, v, false⟩ : HashItem K V) := by
  intro h
  injection h with h'
  rw [h'] at hdel
  cases hdel

theorem resizeStep_error (e : HTError) (s : Option (HashItem K V)) :
    resizeStep hashF pstep (.error e) s = .error e := rfl

theorem foldl_resizeStep_error (e : HTError)
    (l : List (Option (HashItem K V))) :
    List.foldl (resizeStep hashF pstep) (.error e) l = .error e := by
  induction l with
  | nil => rfl
  | cons s rest ih =>
    rw [List.foldl_cons, resizeStep_error, ih]

theorem resizeStep_none (cur : HashTableState K V) :
    resizeStep hashF pstep (.ok cur) none = .ok cur := rfl

theorem resizeStep_deleted (cur : HashTableState K V) (hi : HashItem K V)
    (hd : hi.deleted = true) :
    resizeStep hashF pstep (.ok cur) (some hi) = .ok cur := by
  simp [resizeStep, hd]

theorem resizeStep_live_oob (cur : HashTableState K V) (hi : HashItem K V)
    (hd : hi.deleted = false)
    (hpl : placeLoc hashF pstep cur.table (capacity cur) hi.key = none) :
    resizeStep hashF pstep (.ok cur) (some hi) = .error .oob := by
  simp [resizeStep, hd, hpl]

theorem resizeStep_live_place (cur : HashTableState K V) (hi : HashItem K V)
    (loc : Nat) (hd : hi.deleted = false)
    (hpl : placeLoc hashF pstep cur.table (capacity cur) hi.key = some loc) :
    resizeStep hashF pstep (.ok cur) (some hi) =
      .ok { cur with
            table := cur.table.set loc (some hi)
            elementCount := cur.elementCount + 1 } := by
  simp [resizeStep, hd, hpl]

/-- Invariant carried through the reinsertion fold of `resize`: `pre` is the
already-processed prefix of the old table. -/
def RFold (st : HashTableState K V) (pre : List (Option (HashItem K V)))
    (cur : HashTableState K V) : Prop :=
  INV hashF pstep cur ∧
  cur.mIndex = st.mIndex + 1 ∧
  cur.deletedCount = 0 ∧
  countDeleted cur.table = 0 ∧
  cur.elementCount = countLive pre ∧
  (∀ k v, HasVal cur k v ↔ HasValL pre k v)

theorem resize_fold
    (Hp : ∀ s m k i, 0 < m → pstep s m k i < m)
    (st : HashTableState K V) (hinvs : INV hashF pstep st) :
    ∀ (rest pre : List (Option (HashItem K V)))
      (cur fin : HashTableState K V),
      st.table = pre ++ rest →
      RFold hashF pstep st pre cur →
      List.foldl (resizeStep hashF pstep) (.ok cur) rest = .ok fin →
      RFold hashF pstep st (pre ++ rest) fin := by
  intro rest
  induction rest with
  | nil =>
    intro pre cur fin hsplit hr hf
    rw [List.foldl_nil] at hf
    injection hf with hf'
    subst hf'
    rw [List.append_nil]
    exact hr
  | cons s rest ih =>
    intro pre cur fin hsplit hr hf
    rw [List.foldl_cons] at hf
    have hassoc : pre ++ s :: rest = (pre ++ [s]) ++ rest := by
      rw [List.append_assoc]
      rfl
    cases s with
    | none =>
      rw [resizeStep_none] at hf
      obtain ⟨h1, h2, h3, h4, h5, h6⟩ := hr
      have hr' : RFold hashF pstep st (pre ++ [none]) cur := by
        refine ⟨h1, h2, h3, h4, ?_, ?_⟩
        · rw [countLive_append, countLive_singleton]
          have h0 : liveB (none : Option (HashItem K V)) = 0 := rfl
          omega
        · intro k v
          rw [h6 k v, hasValL_append_one]
          constructor
          · exact Or.inl
          · rintro (h | h)
            · exact h
            · cases h
      have := ih (pre ++ [none]) cur fin (by rw [hsplit, hassoc]) hr' hf
      rw [hassoc]
      exact this
    | some hi =>
      cases hdel : hi.deleted with
      | true =>
        rw [resizeStep_deleted hashF pstep cur hi hdel] at hf
        obtain ⟨h1, h2, h3, h4, h5, h6⟩ := hr
        have hr' : RFold hashF pstep st (pre ++ [some hi]) cur := by
          refine ⟨h1, h2, h3, h4, ?_, ?_⟩
          · rw [countLive_append, countLive_singleton]
            have h0 : liveB (some hi) = 0 := by simp [liveB, hdel]
            omega
          · intro k v
            rw [h6 k v, hasValL_append_one]
            constructor
            · exact Or.inl
            · rintro (h | h)
              · exact h
              · exact absurd h (some_ne_live hi hdel k v)
        have := ih (pre ++ [some hi]) cur fin (by rw [hsplit, hassoc]) hr' hf
        rw [hassoc]
        exact this
      | false =>
        cases hpl : placeLoc hashF pstep cur.table (capacity cur) hi.key with
        | none =>
          rw [resizeStep_live_oob hashF pstep cur hi hdel hpl,
            foldl_resizeStep_error] at hf
          cases hf
        | some loc =>
          rw [resizeStep_live_place hashF pstep cur hi loc hdel hpl] at hf
          obtain ⟨hinvc, hmidxc, hdc, hcdc, helc, hhv⟩ := hr
          have hnolive : ∀ x, liveKeyAt cur x = some hi.key → False := by
            intro x hx
            rw [liveKeyAt_eq_some_iff] at hx
            obtain ⟨v', hv'⟩ := hx
            have hpre : HasValL pre hi.key v' := (hhv hi.key v').mp ⟨x, hv'⟩
            obtain ⟨s, hsmem, hseq⟩ := hpre
            rw [List.mem_iff_getElem?] at hsmem
            obtain ⟨n, hn⟩ := hsmem
            have hnlen : n < pre.length := by
              by_contra hcon
              rw [List.getElem?_eq_none (by omega)] at hn
              cases hn
            have hlive_n : liveKeyAt st n = some hi.key := by
              rw [liveKeyAt_eq_some_iff]
              refine ⟨v', ?_⟩
              show st.table.getD n none = _
              rw [hsplit, List.getD_eq_getElem?_getD,
                List.getElem?_append_left hnlen, hn]
              simpa using hseq
            have hlive_pl : liveKeyAt st pre.length = some hi.key := by
              rw [liveKeyAt_eq_some_iff]
              refine ⟨hi.val, ?_⟩
              show st.table.getD pre.length none = _
              rw [hsplit, List.getD_eq_getElem?_getD,
                List.getElem?_append_right (le_refl pre.length),
                Nat.sub_self]
              simp only [List.getElem?_cons_zero, Option.getD_some]
              rw [← hdel]
            obtain ⟨_, _, huniqs, _, _, _⟩ := hinvs
            have := huniqs n pre.length hi.key hlive_n hlive_pl
            omega
          obtain ⟨hinv1, hmidx1, hdc1, hcd1, hel1, hhv1⟩ :=
            place_preserves hashF pstep Hp cur hi loc hinvc hdel hnolive hpl
              _ rfl
          have hr' : RFold hashF pstep st (pre ++ [some hi])
              { cur with
                table := cur.table.set loc (some hi)
                elementCount := cur.elementCount + 1 } := by
            refine ⟨hinv1, ?_, ?_, ?_, ?_, ?_⟩
            · rw [hmidx1, hmidxc]
            · rw [hdc1, hdc]
            · rw [hcd1, hcdc]
            · rw [hel1, helc, countLive_append, countLive_singleton]
              have h1 : liveB (some hi) = 1 := by simp [liveB, hdel]
              omega
            · intro k v
              rw [hhv1 k v, hasValL_append_one, hhv k v,
                some_eq_live_iff hi hdel k v]
              constructor
              · rintro (h | h)
                · exact Or.inr h
                · exact Or.inl h
              · rintro (h | h)
                · exact Or.inr h
                · exact Or.inl h
          have := ih (pre ++ [some hi]) _ fin (by rw [hsplit, hassoc]) hr' hf
          rw [hassoc]
          exact this

/-- `HashTable::resize` (`src/ht.h:305-329`), on success: the schedule index
advances by one, counters are rebuilt (no tombstones survive), and exactly
the live bindings of the old table are present. -/
theorem resize_preserves
    (Hp : ∀ s m k i, 0 < m → pstep s m k i < m)
    (st st' : HashTableState K V) (hinv : INV hashF pstep st)
    (hok : resize hashF pstep st = .ok st') :
    INV hashF pstep st' ∧
    st'.mIndex = st.mIndex + 1 ∧
    st'.deletedCount = 0 ∧
    st'.elementCount = countLive st.table ∧
    countDeleted st'.table = 0 ∧
    (∀ k v, HasVal st' k v ↔ HasVal st k v) := by
  unfold resize at hok
  split at hok
  · cases hok
  case _ hsch =>
    have hmlt : st.mIndex + 1 < CAPACITIES.length := by omega
    set st0 : HashTableState K V :=
      { table := List.replicate (CAPACITIES.getD (st.mIndex + 1) 0) none
        mIndex := st.mIndex + 1
        elementCount := 0
        deletedCount := 0 } with hst0
    have hslot0 : ∀ i, slotAt st0 i = none := by
      intro i
      exact slotAt_replicate (CAPACITIES.getD (st.mIndex + 1) 0) i
    have hnolive0 : ∀ i k, liveKeyAt st0 i = some k → False := by
      intro i k hk
      rw [liveKeyAt_eq_some_iff] at hk
      obtain ⟨v, hv⟩ := hk
      rw [hslot0 i] at hv
      cases hv
    have hr0 : RFold hashF pstep st [] st0 := by
      refine ⟨⟨?_, hmlt, ?_, ?_, ?_, ?_⟩, rfl, rfl, ?_, rfl, ?_⟩
      · show (List.replicate (CAPACITIES.getD (st.mIndex + 1) 0)
          (none : Option (HashItem K V))).length = capacity st0
        rw [List.length_replicate]
        rfl
      · intro i j k hik hjk
        exact absurd hik (fun h => hnolive0 i k h)
      · intro i k hik
        exact absurd hik (fun h => hnolive0 i k h)
      · show (0 : Nat) = countLive (List.replicate _ none)
        rw [countLive_replicate]
      · show (0 : Nat) = countDeleted (List.replicate _ none)
        rw [countDeleted_replicate]
      · show countDeleted (List.replicate _ (none : Option (HashItem K V))) = 0
        rw [countDeleted_replicate]
      · intro k v
        constructor
        · rintro ⟨i, hv⟩
          rw [hslot0 i] at hv
          cases hv
        · rintro ⟨s, hs, _⟩
          cases hs
    have hmain := resize_fold hashF pstep Hp st hinv st.table [] st0 st'
      (by rw [List.nil_append]) hr0 hok
    obtain ⟨hinv', hmidx', hdc', hcd', hel', hhv'⟩ := hmain
    refine ⟨hinv', hmidx', hdc', ?_, hcd', ?_⟩
    · rw [hel', List.nil_append]
    · intro k v
      rw [hhv' k v]
      rw [show ([] : List (Option (HashItem K V))) ++ st.table = st.table from
        List.nil_append st.table]
      exact (hasVal_iff_hasValL st k v).symm

end ResizeLemmas

section OpsPreservation

variable {K V : Type} [DecidableEq K]
variable (hashF : K → Nat) (pstep : Nat → Nat → K → Nat → Nat) (alpha : ℚ)

/-- A successful `insert` (`src/ht.h:214-232`) preserves the invariant and
binds `p.1` to `p.2`, leaving all other keys alone — whether or not the
load-factor check triggered a `resize`. -/
theorem insert_preserves
    (Hp : ∀ s m k i, 0 < m → pstep s m k i < m)
    (st st' : HashTableState K V) (p : K × V)
    (hinv : INV hashF pstep st)
    (hok : insert hashF pstep alpha st p = .ok st') :
    INV hashF pstep st' ∧
      (∀ k v, HasVal st' k v ↔
        ((p.1 = k ∧ v = p.2) ∨ (p.1 ≠ k ∧ HasVal st k v))) := by
  unfold insert at hok
  split at hok
  · cases hok
  case _ st1 hpl =>
    obtain ⟨hinv1, _, hhv1⟩ :=
      insertPlace_preserves hashF pstep Hp st p st1 hinv hpl
    split at hok
    · obtain ⟨hinv2, _, _, _, _, hhv2⟩ :=
        resize_preserves hashF pstep Hp st1 st' hinv1 hok
      exact ⟨hinv2, fun k v => by rw [hhv2 k v, hhv1 k v]⟩
    · injection hok with hok'
      subst hok'
      exact ⟨hinv1, hhv1⟩

/-- The two behaviours of `remove` (`src/ht.h:235-242`): a no-op when no
live entry holds the key, and an in-place tombstoning of the live entry
otherwise. -/
theorem remove_cases
    (Hp : ∀ s m k i, 0 < m → pstep s m k i < m)
    (st : HashTableState K V) (k0 : K)
    (hinv : INV hashF pstep st) :
    ((∀ v, ¬HasVal st k0 v) ∧ remove hashF pstep st k0 = st) ∨
    (∃ loc hi, slotAt st loc = some hi ∧ hi.deleted = false ∧
      hi.key = k0 ∧ loc < st.table.length ∧
      remove hashF pstep st k0 =
        { st with
          table := st.table.set loc (some ⟨hi.key, hi.val, true⟩)
          elementCount := st.elementCount - 1
          deletedCount := st.deletedCount + 1 }) := by
  obtain ⟨hlen, hmidx, huniq, hreach, hcl, hcd⟩ := hinv
  have hinv' : INV hashF pstep st := ⟨hlen, hmidx, huniq, hreach, hcl, hcd⟩
  have hm0 : 0 < capacity st := capacity_pos hmidx
  cases hploc : probeLoc hashF pstep st k0 with
  | none =>
    refine Or.inl ⟨?_, by simp [remove, hploc]⟩
    rintro v ⟨i, hv⟩
    have hk : liveKeyAt st i = some k0 := by
      rw [liveKeyAt_eq_some_iff]; exact ⟨v, hv⟩
    have := probeLoc_of_live hashF pstep st hinv' i k0 hk
    rw [hploc] at this
    cases this
  | some loc =>
    cases hs : slotAt st loc with
    | none =>
      refine Or.inl ⟨?_, by simp [remove, hploc, hs]⟩
      rintro v ⟨i, hv⟩
      have hk : liveKeyAt st i = some k0 := by
        rw [liveKeyAt_eq_some_iff]; exact ⟨v, hv⟩
      have := probeLoc_of_live hashF pstep st hinv' i k0 hk
      rw [hploc] at this
      injection this with this'
      subst this'
      rw [hv] at hs
      cases hs
    | some hi =>
      have hmatch : hi.deleted = false ∧ hi.key = k0 := by
        obtain ⟨_, hcase⟩ := probeLoc_spec hashF pstep st k0 loc hploc
        rcases hcase with hempty | ⟨hi', hs', hd', hk'⟩
        · rw [hs] at hempty; cases hempty
        · rw [hs] at hs'
          injection hs' with he
          rw [← he] at hd' hk'
          exact ⟨hd', hk'⟩
      have hloclen : loc < st.table.length := by
        obtain ⟨⟨j, hj, hpos⟩, _⟩ := probeLoc_spec hashF pstep st k0 loc hploc
        rw [hlen, hpos]
        exact Hp _ _ _ _ hm0
      refine Or.inr ⟨loc, hi, hs, hmatch.1, hmatch.2, hloclen, ?_⟩
      simp [remove, hploc, hs, hmatch.1]

/-- `remove` preserves the invariant and clears exactly the removed key. -/
theorem remove_preserves
    (Hp : ∀ s m k i, 0 < m → pstep s m k i < m)
    (st : HashTableState K V) (k0 : K)
    (hinv : INV hashF pstep st) :
    INV hashF pstep (remove hashF pstep st k0) ∧
      (∀ k v, HasVal (remove hashF pstep st k0) k v ↔
        (k0 ≠ k ∧ HasVal st k v)) := by
  obtain ⟨hlen, hmidx, huniq, hreach, hcl, hcd⟩ := hinv
  have hinv' : INV hashF pstep st := ⟨hlen, hmidx, huniq, hreach, hcl, hcd⟩
  rcases remove_cases hashF pstep Hp st k0 hinv' with
    ⟨habs, heq⟩ | ⟨loc, hi, hs, hdel, hkey, hloclen, heq⟩
  · rw [heq]
    refine ⟨hinv', ?_⟩
    intro k v
    constructor
    · intro hv
      refine ⟨?_, hv⟩
      rintro rfl
      exact habs v hv
    · exact fun h => h.2
  · rw [heq]
    set B : Option (HashItem K V) := some ⟨hi.key, hi.val, true⟩ with hBdef
    set st1 : HashTableState K V :=
      { st with
        table := st.table.set loc B
        elementCount := st.elementCount - 1
        deletedCount := st.deletedCount + 1 } with hst1
    have hcap : capacity st1 = capacity st := rfl
    have hB : slotAt st1 loc = B := slotAt_set_self st loc B hloclen
    have hNe : ∀ x, x ≠ loc → slotAt st1 x = slotAt st x := by
      intro x hx
      exact slotAt_set_ne st loc x B (fun h => hx h.symm)
    have hmono : ∀ x, slotAt st x ≠ none → slotAt st1 x ≠ none := by
      intro x hx
      by_cases hxl : x = loc
      · subst hxl; rw [hB]; simp [hBdef]
      · rw [hNe x hxl]; exact hx
    have hlive_st : liveKeyAt st loc = some k0 := by
      rw [liveKeyAt_eq_some_iff]
      exact ⟨hi.val, by rw [hs, ← hdel, ← hkey]⟩
    have hlk1 : liveKeyAt st1 loc = none := by
      unfold liveKeyAt
      rw [hB, hBdef]
      simp
    have hlk : ∀ x, x ≠ loc → liveKeyAt st1 x = liveKeyAt st x :=
      fun x hx => liveKeyAt_congr st st1 x (hNe x hx)
    have hlive1cnt : countLive st.table = countLive (st.table.set loc B) + 1 := by
      have heq2 := countLive_set st loc hloclen B
      rw [hs] at heq2
      have h1 : liveB (some hi) = 1 := by simp [liveB, hdel]
      have h0 : liveB B = 0 := by rw [hBdef]; simp [liveB]
      rw [h1, h0] at heq2
      omega
    have hdead1cnt : countDeleted (st.table.set loc B) =
        countDeleted st.table + 1 := by
      have heq2 := countDeleted_set st loc hloclen B
      rw [hs] at heq2
      have h1 : deadB (some hi) = 0 := by simp [deadB, hdel]
      have h0 : deadB B = 1 := by rw [hBdef]; simp [deadB]
      rw [h1, h0] at heq2
      omega
    refine ⟨⟨?_, hmidx, ?_, ?_, ?_, ?_⟩, ?_⟩
    · show (st.table.set loc B).length = capacity st
      rw [List.length_set, hlen]
    · -- uniqueness
      intro i j k hik hjk
      have hil : i ≠ loc := by
        rintro rfl
        rw [hlk1] at hik
        cases hik
      have hjl : j ≠ loc := by
        rintro rfl
        rw [hlk1] at hjk
        cases hjk
      exact huniq i j k (by rw [← hlk i hil]; exact hik)
        (by rw [← hlk j hjl]; exact hjk)
    · -- reachability
      intro i k hik
      have hil : i ≠ loc := by
        rintro rfl
        rw [hlk1] at hik
        cases hik
      exact reach_mono hashF pstep st st1 hcap hmono k i
        (hreach i k (by rw [← hlk i hil]; exact hik))
    · -- elementCount
      show st.elementCount - 1 = countLive (st.table.set loc B)
      omega
    · -- deletedCount
      show st.deletedCount + 1 = countDeleted (st.table.set loc B)
      omega
    · -- bound keys
      intro k v
      constructor
      · rintro ⟨j, hj⟩
        have hjl : j ≠ loc := by
          rintro rfl
          rw [hB, hBdef] at hj
          injection hj with hj'
          have : (true : Bool) = false := congrArg HashItem.deleted hj'
          cases this
        rw [hNe j hjl] at hj
        refine ⟨?_, ⟨j, hj⟩⟩
        rintro rfl
        have : liveKeyAt st j = some k0 := by
          rw [liveKeyAt_eq_some_iff]; exact ⟨v, hj⟩
        exact hjl (huniq j loc k0 this hlive_st)
      · rintro ⟨hk, j, hj⟩
        have hjl : j ≠ loc := by
          rintro rfl
          rw [hs] at hj
          injection hj with hj'
          refine hk ?_
          rw [← hkey, hj']
        exact ⟨j, by rw [hNe j hjl]; exact hj⟩

/-- The state built by the constructor satisfies the invariant. -/
theorem initState_INV : INV hashF pstep (initState K V) := by
  have hslot : ∀ i, slotAt (initState K V) i = none := by
    intro i
    exact slotAt_replicate (CAPACITIES.getD 0 0) i
  have hnolive : ∀ i k, liveKeyAt (initState K V) i = some k → False := by
    intro i k hk
    rw [liveKeyAt_eq_some_iff] at hk
    obtain ⟨v, hv⟩ := hk
    rw [hslot i] at hv
    cases hv
  refine ⟨?_, ?_, ?_, ?_, ?_, ?_⟩
  · show (List.replicate (CAPACITIES.getD 0 0)
      (none : Option (HashItem K V))).length = capacity (initState K V)
    rw [List.length_replicate]
    rfl
  · show (0 : Nat) < CAPACITIES.length
    rw [CAPACITIES_length]
    omega
  · intro i j k hik hjk
    exact absurd hik (fun h => hnolive i k h)
  · intro i k hik
    exact absurd hik (fun h => hnolive i k h)
  · show (0 : Nat) = countLive (List.replicate _ none)
    rw [countLive_replicate]
  · show (0 : Nat) = countDeleted (List.replicate _ none)
    rw [countDeleted_replicate]

/-- Master induction: a successful run of a sequence of operations leaves
the table in an invariant state whose live bindings are exactly those of the
reference model. -/
theorem runOps_preserves
    (Hp : ∀ s m k i, 0 < m → pstep s m k i < m) :
    ∀ (ops : List (Op K V)) (st fin : HashTableState K V) (A : K → Option V),
      INV hashF pstep st →
      (∀ k v, HasVal st k v ↔ A k = some v) →
      runOps hashF pstep alpha st ops = .ok fin →
      INV hashF pstep fin ∧
        (∀ k v, HasVal fin k v ↔ mdlFrom A ops k = some v) := by
  intro ops
  induction ops with
  | nil =>
    intro st fin A hinv hA hrun
    rw [runOps] at hrun
    injection hrun with hrun'
    subst hrun'
    exact ⟨hinv, hA⟩
  | cons op rest ih =>
    intro st fin A hinv hA hrun
    cases op with
    | insert p =>
      rw [runOps] at hrun
      split at hrun
      case _ st1 hok =>
        obtain ⟨hinv1, hhv1⟩ :=
          insert_preserves hashF pstep alpha Hp st st1 p hinv hok
        refine ih st1 fin (fun k' => if p.1 = k' then some p.2 else A k')
          hinv1 ?_ hrun
        intro k v
        rw [hhv1 k v]
        by_cases hk : p.1 = k
        · subst hk
          simp only [if_pos rfl]
          constructor
          · rintro (⟨_, rfl⟩ | ⟨hne, _⟩)
            · rfl
            · exact absurd rfl hne
          · intro h
            injection h with h'
            refine Or.inl ⟨?_, h'.symm⟩
            trivial
        · simp only [if_neg hk]
          constructor
          · rintro (⟨heq, _⟩ | ⟨_, hv⟩)
            · exact absurd heq hk
            · exact (hA k v).mp hv
          · intro h
            exact Or.inr ⟨hk, (hA k v).mpr h⟩
      case _ e herr =>
        cases hrun
    | remove k0 =>
      rw [runOps] at hrun
      obtain ⟨hinv1, hhv1⟩ :=
        remove_preserves hashF pstep Hp st k0 hinv
      refine ih _ fin (fun k' => if k0 = k' then none else A k')
        hinv1 ?_ hrun
      intro k v
      rw [hhv1 k v]
      by_cases hk : k0 = k
      · subst hk
        simp only [if_pos rfl]
        constructor
        · rintro ⟨hne, _⟩
          exact absurd rfl hne
        · intro h
          cases h
      · simp only [if_neg hk]
        constructor
        · rintro ⟨_, hv⟩
          exact (hA k v).mp hv
        · intro h
          exact ⟨hk, (hA k v).mpr h⟩

end OpsPreservation

/-! ### Coverage of the probe sequences, and the double-hash step -/

section Coverage

/-- The linear probe sequence visits every slot of the table. -/
theorem linStep_cov (m start t : Nat) (hm : 0 < m) (ht : t < m) :
    ∃ i, i < m ∧ (start + i) % m = t := by
  obtain ⟨q, s0, hdecomp, hs0lt⟩ : ∃ q s0, start = m * q + s0 ∧ s0 < m :=
    ⟨start / m, start % m, (Nat.div_add_mod start m).symm, Nat.mod_lt _ hm⟩
  subst hdecomp
  refine ⟨(t + m - s0) % m, Nat.mod_lt _ hm, ?_⟩
  rw [Nat.add_mod, Nat.mod_mod, ← Nat.add_mod]
  have harith : m * q + s0 + (t + m - s0) = t + m + m * q := by
    omega
  rw [harith, Nat.add_mul_mod_self_left, Nat.add_mod_right,
    Nat.mod_eq_of_lt ht]

theorem findModulusGo_ge (ts : Nat) :
    ∀ (l : List Nat) (acc : Nat), 7 ≤ acc → (∀ v ∈ l, 7 ≤ v) →
      7 ≤ findModulusGo ts l acc := by
  intro l
  induction l with
  | nil => intro acc h _; exact h
  | cons v rest ih =>
    intro acc h hl
    unfold findModulusGo
    split
    · exact ih v (hl v (List.mem_cons_self v rest))
        (fun w hw => hl w (List.mem_cons_of_mem v hw))
    · exact h

theorem findModulusGo_lt (ts : Nat) (hts : 7 < ts) :
    ∀ (l : List Nat) (acc : Nat), acc < ts → findModulusGo ts l acc < ts := by
  intro l
  induction l with
  | nil => intro acc h; exact h
  | cons v rest ih =>
    intro acc h
    unfold findModulusGo
    split
    case _ hv => exact ih v hv
    · exact h

theorem DOUBLE_HASH_MOD_ge7 : ∀ v ∈ DOUBLE_HASH_MOD_VALUES, 7 ≤ v := by
  decide

/-- The double-hash modulus is at least 7 for every table size. -/
theorem findModulus_ge7 (ts : Nat) : 7 ≤ findModulus ts := by
  unfold findModulus
  exact findModulusGo_ge ts DOUBLE_HASH_MOD_VALUES
    (DOUBLE_HASH_MOD_VALUES.headD 7) (by decide) DOUBLE_HASH_MOD_ge7

/-- The double-hash modulus is below every table size above 7; in particular
below every scheduled capacity. -/
theorem findModulus_lt (ts : Nat) (hts : 7 < ts) : findModulus ts < ts := by
  unfold findModulus
  have h7 : DOUBLE_HASH_MOD_VALUES.headD 7 = 7 := rfl
  exact findModulusGo_lt ts hts DOUBLE_HASH_MOD_VALUES
    (DOUBLE_HASH_MOD_VALUES.headD 7) (by rw [h7]; omega)

/-- The double-hash step is never zero. -/
theorem dhStepOf_pos (h2v ts : Nat) : 1 ≤ dhStepOf h2v ts := by
  unfold dhStepOf
  have h7 : 7 ≤ findModulus ts := findModulus_ge7 ts
  have hlt : h2v % findModulus ts < findModulus ts := Nat.mod_lt _ (by omega)
  omega

/-- The double-hash step is below the table size whenever the size exceeds
the smallest listed modulus. -/
theorem dhStepOf_lt (h2v ts : Nat) (hts : 7 < ts) : dhStepOf h2v ts < ts := by
  unfold dhStepOf
  have := findModulus_lt ts hts
  omega

/-- With a prime table size and a step in `[1, m)`, the double-hash probe
sequence visits every slot. -/
theorem dh_cov (m start step t : Nat) (hprime : Nat.Prime m)
    (h1 : 1 ≤ step) (h2 : step < m) (ht : t < m) :
    ∃ i, i < m ∧ (start + i * step) % m = t := by
  have hm : 0 < m := hprime.pos
  haveI : Fact (Nat.Prime m) := ⟨hprime⟩
  haveI : NeZero m := ⟨by omega⟩
  have hstep0 : (step : ZMod m) ≠ 0 := by
    intro h
    rw [ZMod.natCast_zmod_eq_zero_iff_dvd] at h
    have := Nat.le_of_dvd (by omega) h
    omega
  set i0 : ZMod m := ((t : ZMod m) - (start : ZMod m)) * (step : ZMod m)⁻¹
    with hi0
  refine ⟨i0.val, i0.val_lt, ?_⟩
  have key : ((start + i0.val * step : Nat) : ZMod m) = (t : ZMod m) := by
    push_cast
    rw [ZMod.natCast_zmod_val]
    rw [hi0]
    field_simp
  have hmod : (((start + i0.val * step) % m : Nat) : ZMod m) = (t : ZMod m) := by
    rw [ZMod.natCast_mod]
    exact key
  have := congrArg ZMod.val hmod
  rw [ZMod.val_cast_of_lt (Nat.mod_lt _ hm), ZMod.val_cast_of_lt ht] at this
  exact this

end Coverage

section NoOob

variable {K V : Type} [DecidableEq K]
variable (hashF : K → Nat) (pstep : Nat → Nat → K → Nat → Nat) (alpha : ℚ)

theorem countLive_add_countDeleted (tbl : List (Option (HashItem K V))) :
    countLive tbl + countDeleted tbl = tbl.countP (fun s => s.isSome) := by
  induction tbl with
  | nil => rfl
  | cons s rest ih =>
    unfold countLive countDeleted at ih ⊢
    rw [List.countP_cons, List.countP_cons, List.countP_cons]
    cases s with
    | none => simpa using ih
    | some hi => cases hd : hi.deleted <;> simp [hd] <;> omega

theorem exists_empty_slot (tbl : List (Option (HashItem K V)))
    (h : tbl.countP (fun s => s.isSome) < tbl.length) :
    ∃ idx, idx < tbl.length ∧ tbl.getD idx none = none := by
  by_contra hcon
  push_neg at hcon
  have hall : ∀ s ∈ tbl, s.isSome := by
    intro s hs
    rw [List.mem_iff_getElem] at hs
    obtain ⟨n, hn, rfl⟩ := hs
    have hget : tbl.getD n none = tbl[n] := by
      rw [List.getD_eq_getElem?_getD, List.getElem?_eq_getElem hn]
      rfl
    have := hcon n hn
    rw [hget] at this
    cases hx : tbl[n] with
    | none => exact absurd hx this
    | some _ => rfl
  rw [List.countP_eq_length.mpr hall] at h
  omega

/-- If every placement can reach an empty slot (the probe sequence covers the
table and room remains), the reinsertion fold of `resize` never fails. -/
theorem resize_fold_ok
    (Hp : ∀ s m k i, 0 < m → pstep s m k i < m) (m' : Nat) (hm' : 0 < m')
    (hcov : ∀ (k : K) (t : Nat), t < m' →
      ∃ i, i < m' ∧ pstep (hashF k % m') m' k i = t) :
    ∀ (rest : List (Option (HashItem K V))) (cur : HashTableState K V),
      cur.table.length = m' → capacity cur = m' →
      countLive cur.table + countDeleted cur.table + rest.length ≤ m' →
      ∃ fin, List.foldl (resizeStep hashF pstep) (.ok cur) rest = .ok fin := by
  intro rest
  induction rest with
  | nil =>
    intro cur _ _ _
    exact ⟨cur, rfl⟩
  | cons s rest ih =>
    intro cur h1 h2 h3
    rw [List.length_cons] at h3
    rw [List.foldl_cons]
    cases s with
    | none =>
      rw [resizeStep_none]
      exact ih cur h1 h2 (by omega)
    | some hi =>
      cases hdel : hi.deleted with
      | true =>
        rw [resizeStep_deleted hashF pstep cur hi hdel]
        exact ih cur h1 h2 (by omega)
      | false =>
        have hne : cur.table.countP (fun s => s.isSome) < m' := by
          have := countLive_add_countDeleted cur.table
          omega
        obtain ⟨idx, hidxlen, hempty⟩ :=
          exists_empty_slot cur.table (by rw [h1]; exact hne)
        obtain ⟨i, him, hpos⟩ := hcov hi.key idx (by omega)
        have hplsome :
            placeLoc hashF pstep cur.table (capacity cur) hi.key ≠ none := by
          rw [h2]
          intro hnone
          rw [placeLoc, probeAux_eq_none_iff] at hnone
          have hthis := hnone i (Nat.zero_le i) (by omega)
          rw [placeEntry_of_empty hashF pstep cur.table m' hi.key i
            (by rw [hpos]; exact hempty)] at hthis
          cases hthis
        cases hpl : placeLoc hashF pstep cur.table (capacity cur) hi.key with
        | none => exact absurd hpl hplsome
        | some loc =>
          rw [resizeStep_live_place hashF pstep cur hi loc hdel hpl]
          obtain ⟨j, hj, hjpos, hlocempty, _⟩ :=
            placeLoc_spec hashF pstep cur.table (capacity cur) hi.key loc hpl
          have hlocm : loc < m' := by
            rw [← hjpos, h2]
            exact Hp _ _ _ _ hm'
          have hloclen : loc < cur.table.length := by rw [h1]; exact hlocm
          have hcl1 : countLive (cur.table.set loc (some hi)) =
              countLive cur.table + 1 := by
            have heq := countLive_set cur loc hloclen (some hi)
            have hs : slotAt cur loc = none := hlocempty
            rw [hs] at heq
            have h1' : liveB (some hi) = 1 := by simp [liveB, hdel]
            have h0 : liveB (none : Option (HashItem K V)) = 0 := rfl
            rw [h1', h0] at heq
            omega
          have hcd1 : countDeleted (cur.table.set loc (some hi)) =
              countDeleted cur.table := by
            have heq := countDeleted_set cur loc hloclen (some hi)
            have hs : slotAt cur loc = none := hlocempty
            rw [hs] at heq
            have h1' : deadB (some hi) = 0 := by simp [deadB, hdel]
            have h0 : deadB (none : Option (HashItem K V)) = 0 := rfl
            rw [h1', h0] at heq
            omega
          refine ih _ ?_ ?_ ?_
          · show (cur.table.set loc (some hi)).length = m'
            rw [List.length_set, h1]
          · exact h2
          · show countLive (cur.table.set loc (some hi)) +
              countDeleted (cur.table.set loc (some hi)) + rest.length ≤ m'
            rw [hcl1, hcd1]
            omega

/-- Under probe-sequence coverage of the new capacity, `resize` never
reaches the out-of-bounds write `table_[npos]` (`src/ht.h:323`). -/
theorem resize_not_oob
    (Hp : ∀ s m k i, 0 < m → pstep s m k i < m)
    (st : HashTableState K V)
    (hlen : st.table.length = capacity st)
    (hmidx : st.mIndex < CAPACITIES.length)
    (hcov : ∀ (k : K) (t : Nat), t < CAPACITIES.getD (st.mIndex + 1) 0 →
      ∃ i, i < CAPACITIES.getD (st.mIndex + 1) 0 ∧
        pstep (hashF k % CAPACITIES.getD (st.mIndex + 1) 0)
          (CAPACITIES.getD (st.mIndex + 1) 0) k i = t) :
    resize hashF pstep st ≠ .error .oob := by
  unfold resize
  split
  · intro h
    injection h with h'
    cases h'
  case _ hsch =>
    have hm1 : st.mIndex + 1 < CAPACITIES.length := by omega
    have hcaplt : capacity st < CAPACITIES.getD (st.mIndex + 1) 0 :=
      CAPACITIES_strict st.mIndex hmidx hm1
    have hm' : 0 < CAPACITIES.getD (st.mIndex + 1) 0 := CAPACITIES_pos _ hm1
    obtain ⟨fin, hfin⟩ := resize_fold_ok hashF pstep Hp
      (CAPACITIES.getD (st.mIndex + 1) 0) hm' hcov st.table
      { table := List.replicate (CAPACITIES.getD (st.mIndex + 1) 0) none
        mIndex := st.mIndex + 1
        elementCount := 0
        deletedCount := 0 }
      (by rw [List.length_replicate])
      rfl
      (by
        rw [countLive_replicate, countDeleted_replicate, hlen]
        omega)
    rw [hfin]
    intro h
    cases h

theorem countLive_le_length (tbl : List (Option (HashItem K V))) :
    countLive tbl ≤ tbl.length := by
  unfold countLive
  exact List.countP_le_length _

/-- With a covering prober and a growth threshold below 1, an insert on an
invariant tombstone-free state never throws `HashTable full`: it either
succeeds (preserving those facts) or aborts with the schedule-exhausted
error inside `resize`. -/
theorem insert_total
    (Hp : ∀ s m k i, 0 < m → pstep s m k i < m)
    (hcovAll : ∀ (m : Nat), 0 < m → ∀ (k : K) (t : Nat), t < m →
      ∃ i, i < m ∧ pstep (hashF k % m) m k i = t)
    (halpha : alpha < 1)
    (st : HashTableState K V) (p : K × V)
    (hinv : INV hashF pstep st) (hd0 : countDeleted st.table = 0)
    (hecap : st.elementCount < capacity st) :
    (∃ st', insert hashF pstep alpha st p = .ok st' ∧
      INV hashF pstep st' ∧ countDeleted st'.table = 0 ∧
      st'.elementCount < capacity st') ∨
    insert hashF pstep alpha st p = .error .schedule := by
  obtain ⟨hlen, hmidx, huniq, hreach, hcl, hcd⟩ := hinv
  have hinv' : INV hashF pstep st := ⟨hlen, hmidx, huniq, hreach, hcl, hcd⟩
  have hm0 : 0 < capacity st := capacity_pos hmidx
  have hploc_ne : probeLoc hashF pstep st p.1 ≠ none := by
    intro hnone
    have hcnt : st.table.countP (fun s => s.isSome) < st.table.length := by
      have := countLive_add_countDeleted st.table
      omega
    obtain ⟨idx, hidxlen, hempty⟩ := exists_empty_slot st.table hcnt
    have hidxcap : idx < capacity st := by omega
    obtain ⟨i, him, hpos⟩ := hcovAll (capacity st) hm0 p.1 idx hidxcap
    rw [probeLoc, probeAux_eq_none_iff] at hnone
    have hthis := hnone i (Nat.zero_le i) (by omega)
    rw [probeEntry_of_empty hashF pstep st p.1 i
      (by rw [show probeAt hashF pstep st p.1 i = idx from hpos]
          exact hempty)] at hthis
    cases hthis
  cases hploc : probeLoc hashF pstep st p.1 with
  | none => exact absurd hploc hploc_ne
  | some loc =>
    have hloclen : loc < st.table.length := by
      obtain ⟨⟨j, hj, hjpos⟩, _⟩ :=
        probeLoc_spec hashF pstep st p.1 loc hploc
      rw [hlen, hjpos]
      exact Hp _ _ _ _ hm0
    have hmain : ∃ st1, insertPlace hashF pstep st p = .ok st1 ∧
        countDeleted st1.table = 0 := by
      cases hs : slotAt st loc with
      | none =>
        refine ⟨{ st with
                  table := st.table.set loc (some ⟨p.1, p.2, false⟩)
                  elementCount := st.elementCount + 1 },
          by simp [insertPlace, hploc, hs], ?_⟩
        show countDeleted
          (st.table.set loc (some ⟨p.1, p.2, false⟩)) = 0
        have heq := countDeleted_set st loc hloclen (some ⟨p.1, p.2, false⟩)
        rw [hs] at heq
        have h1 : deadB (some (⟨p.1, p.2, false⟩ : HashItem K V)) = 0 := by
          simp [deadB]
        have h0 : deadB (none : Option (HashItem K V)) = 0 := rfl
        rw [h1, h0] at heq
        omega
      | some hi =>
        cases hdel : hi.deleted with
        | true =>
          exfalso
          have hmem : some hi ∈ st.table := by
            have hget : st.table[loc] = some hi := by
              have h := hs
              unfold slotAt at h
              rw [List.getD_eq_getElem?_getD,
                List.getElem?_eq_getElem hloclen] at h
              simpa using h
            rw [← hget]
            exact List.getElem_mem hloclen
          have hpos' : 0 < countDeleted st.table := by
            unfold countDeleted
            rw [List.countP_pos_iff]
            exact ⟨some hi, hmem, by simp [hdel]⟩
          omega
        | false =>
          refine ⟨{ st with
                    table := st.table.set loc (some ⟨hi.key, p.2, hi.deleted⟩) },
            by simp [insertPlace, hploc, hs, hdel], ?_⟩
          show countDeleted
            (st.table.set loc (some ⟨hi.key, p.2, hi.deleted⟩)) = 0
          have heq := countDeleted_set st loc hloclen
            (some ⟨hi.key, p.2, hi.deleted⟩)
          rw [hs] at heq
          have h1 : deadB (some (⟨hi.key, p.2, hi.deleted⟩ : HashItem K V))
              = 0 := by simp [deadB, hdel]
          have h0 : deadB (some hi) = 0 := by simp [deadB, hdel]
          rw [h1, h0] at heq
          omega
    obtain ⟨st1, hok, hd1⟩ := hmain
    obtain ⟨hinv1, hmidx1, _⟩ :=
      insertPlace_preserves hashF pstep Hp st p st1 hinv' hok
    have hins : insert hashF pstep alpha st p =
        if loadFactor st1.elementCount (capacity st1) > alpha then
          resize hashF pstep st1
        else .ok st1 := by
      unfold insert
      rw [hok]
    have hcap1pos : 0 < capacity st1 := capacity_pos hinv1.2.1
    by_cases htr : loadFactor st1.elementCount (capacity st1) > alpha
    · rw [hins, if_pos htr]
      by_cases hsch : CAPACITIES.length ≤ st1.mIndex + 1
      · refine Or.inr ?_
        unfold resize
        rw [if_pos hsch]
      · have hm1 : st1.mIndex + 1 < CAPACITIES.length := by omega
        have hcaplt : capacity st1 < CAPACITIES.getD (st1.mIndex + 1) 0 :=
          CAPACITIES_strict st1.mIndex hinv1.2.1 hm1
        have hm' : 0 < CAPACITIES.getD (st1.mIndex + 1) 0 :=
          CAPACITIES_pos _ hm1
        obtain ⟨fin, hfin⟩ := resize_fold_ok hashF pstep Hp
          (CAPACITIES.getD (st1.mIndex + 1) 0) hm'
          (hcovAll (CAPACITIES.getD (st1.mIndex + 1) 0) hm')
          st1.table
          { table := List.replicate (CAPACITIES.getD (st1.mIndex + 1) 0) none
            mIndex := st1.mIndex + 1
            elementCount := 0
            deletedCount := 0 }
          (by rw [List.length_replicate])
          rfl
          (by
            rw [countLive_replicate, countDeleted_replicate]
            have : st1.table.length = capacity st1 := hinv1.1
            omega)
        have hok2 : resize hashF pstep st1 = .ok fin := by
          unfold resize
          rw [if_neg hsch]
          exact hfin
        obtain ⟨hinvf, hmidxf, _, helf, hcdf, _⟩ :=
          resize_preserves hashF pstep Hp st1 fin hinv1 hok2
        refine Or.inl ⟨fin, hok2, hinvf, hcdf, ?_⟩
        have hele : countLive st1.table ≤ st1.table.length :=
          countLive_le_length st1.table
        have hlen1 : st1.table.length = capacity st1 := hinv1.1
        have hcapf : capacity fin = CAPACITIES.getD (st1.mIndex + 1) 0 := by
          unfold capacity
          rw [hmidxf]
        omega
    · refine Or.inl ⟨st1, by rw [hins, if_neg htr], hinv1, hd1, ?_⟩
      have hle : loadFactor st1.elementCount (capacity st1) ≤ alpha :=
        not_lt.mp htr
      rw [loadFactor_eq_div] at hle
      have hc : (0 : ℚ) < (capacity st1 : ℚ) := by exact_mod_cast hcap1pos
      have h1 : (st1.elementCount : ℚ) ≤ alpha * (capacity st1 : ℚ) :=
        (div_le_iff₀ hc).mp hle
      have h2 : alpha * (capacity st1 : ℚ) < 1 * (capacity st1 : ℚ) :=
        mul_lt_mul_of_pos_right halpha hc
      rw [one_mul] at h2
      have h3 : (st1.elementCount : ℚ) < (capacity st1 : ℚ) :=
        lt_of_le_of_lt h1 h2
      exact_mod_cast h3

/-- Over insert-only workloads with a covering prober and a threshold below
1, a run never throws `HashTable full`. -/
theorem runOps_inserts_not_full
    (Hp : ∀ s m k i, 0 < m → pstep s m k i < m)
    (hcovAll : ∀ (m : Nat), 0 < m → ∀ (k : K) (t : Nat), t < m →
      ∃ i, i < m ∧ pstep (hashF k % m) m k i = t)
    (halpha : alpha < 1) :
    ∀ (ops : List (Op K V)), (∀ op ∈ ops, ∀ k0, op ≠ Op.remove k0) →
    ∀ st, INV hashF pstep st → countDeleted st.table = 0 →
      st.elementCount < capacity st →
      runOps hashF pstep alpha st ops ≠ .error .full := by
  intro ops
  induction ops with
  | nil =>
    intro _ st _ _ _
    rw [runOps]
    intro h
    cases h
  | cons op rest ih =>
    intro hno st hinv hd0 hcap
    cases op with
    | remove k0 =>
      exact absurd rfl (hno (Op.remove k0) (List.mem_cons_self _ _) k0)
    | insert p =>
      rcases insert_total hashF pstep alpha Hp hcovAll halpha st p hinv hd0
          hcap with ⟨st', hok, hinv', hd0', hcap'⟩ | herr
      · rw [runOps, hok]
        exact ih (fun op hop => hno op (List.mem_cons_of_mem _ hop))
          st' hinv' hd0' hcap'
      · rw [runOps, herr]
        intro h
        injection h with h'
        cases h'

end NoOob

section FinalHelpers

variable {K V : Type} [DecidableEq K]
variable (hashF : K → Nat) (pstep : Nat → Nat → K → Nat → Nat) (alpha : ℚ)

theorem initState_not_hasVal (k : K) (v : V) :
    ¬HasVal (initState K V) k v := by
  rintro ⟨i, hv⟩
  rw [show slotAt (initState K V) i = none from
    slotAt_replicate (CAPACITIES.getD 0 0) i] at hv
  cases hv

theorem runOps_model (Hp : ∀ s m k i, 0 < m → pstep s m k i < m)
    (ops : List (Op K V)) (s : HashTableState K V)
    (h : runOps hashF pstep alpha (initState K V) ops = .ok s) :
    INV hashF pstep s ∧
      (∀ k v, HasVal s k v ↔ mdl ops k = some v) := by
  have hA : ∀ (k : K) (v : V),
      HasVal (initState K V) k v ↔
        (fun _ : K => (none : Option V)) k = some v := by
    intro k v
    constructor
    · intro hv
      exact absurd hv (initState_not_hasVal k v)
    · intro hv
      cases hv
  exact runOps_preserves hashF pstep alpha Hp ops (initState K V) s
    (fun _ => none) (initState_INV hashF pstep) hA h

theorem countDeleted_zero_no_tombstone (tbl : List (Option (HashItem K V)))
    (h : countDeleted tbl = 0) :
    ∀ i hi, tbl.getD i none = some hi → hi.deleted = false := by
  intro i hi hget
  by_cases hlen : i < tbl.length
  · have hmem : some hi ∈ tbl := by
      have hg : tbl[i] = some hi := by
        rw [List.getD_eq_getElem?_getD, List.getElem?_eq_getElem hlen] at hget
        simpa using hget
      rw [← hg]
      exact List.getElem_mem hlen
    have := List.countP_eq_zero.mp h (some hi) hmem
    simpa using this
  · exfalso
    rw [List.getD_eq_getElem?_getD, List.getElem?_eq_none (by omega)] at hget
    cases hget

theorem insertPlace_mIndex (st st' : HashTableState K V) (p : K × V)
    (h : insertPlace hashF pstep st p = .ok st') : st'.mIndex = st.mIndex := by
  unfold insertPlace at h
  split at h
  · cases h
  · split at h
    · injection h with h'
      subst h'
      rfl
    · split at h
      · injection h with h'
        subst h'
        rfl
      · injection h with h'
        subst h'
        rfl

theorem foldl_resizeStep_mIndex :
    ∀ (l : List (Option (HashItem K V))) (cur fin : HashTableState K V),
      List.foldl (resizeStep hashF pstep) (.ok cur) l = .ok fin →
      fin.mIndex = cur.mIndex := by
  intro l
  induction l with
  | nil =>
    intro cur fin h
    rw [List.foldl_nil] at h
    injection h with h'
    subst h'
    rfl
  | cons s rest ih =>
    intro cur fin h
    rw [List.foldl_cons] at h
    cases s with
    | none =>
      rw [resizeStep_none] at h
      exact ih cur fin h
    | some hi =>
      cases hdel : hi.deleted with
      | true =>
        rw [resizeStep_deleted hashF pstep cur hi hdel] at h
        exact ih cur fin h
      | false =>
        cases hpl : placeLoc hashF pstep cur.table (capacity cur) hi.key with
        | none =>
          rw [resizeStep_live_oob hashF pstep cur hi hdel hpl,
            foldl_resizeStep_error] at h
          cases h
        | some loc =>
          rw [resizeStep_live_place hashF pstep cur hi loc hdel hpl] at h
          exact ih { cur with
                     table := cur.table.set loc (some hi)
                     elementCount := cur.elementCount + 1 } fin h

theorem resize_mIndex (st st' : HashTableState K V)
    (h : resize hashF pstep st = .ok st') : st'.mIndex = st.mIndex + 1 := by
  unfold resize at h
  split at h
  · cases h
  · exact foldl_resizeStep_mIndex hashF pstep st.table _ st' h

end FinalHelpers

/-! ### The claims -/

theorem linStep_inrange {K : Type} :
    ∀ (s m : Nat) (k : K) (i : Nat), 0 < m → linStep s m k i < m :=
  fun _ _ _ _ hm => Nat.mod_lt _ hm

theorem linStep_covAll {K : Type} (hashF : K → Nat) :
    ∀ (m : Nat), 0 < m → ∀ (k : K) (t : Nat), t < m →
      ∃ i, i < m ∧ linStep (hashF k % m) m k i = t :=
  fun m hm k t ht => linStep_cov m (hashF k % m) t hm ht

/-- C4: for every sequence of inserts and removes that runs without an
exception, every key whose last surviving operation bound it to `v` is found
with value `v` afterwards — resizes included, since `runOps` performs every
load-factor-triggered resize along the way. -/
theorem C4_find_returns_last_insert {K V : Type} [DecidableEq K]
    (hashF : K → Nat) (pstep : Nat → Nat → K → Nat → Nat)
    (Hp : ∀ s m k i, 0 < m → pstep s m k i < m) (alpha : ℚ)
    (ops : List (Op K V)) (s : HashTableState K V) (k : K) (v : V)
    (hrun : runOps hashF pstep alpha (initState K V) ops = .ok s)
    (hlast : mdl ops k = some v) :
    find hashF pstep s k = some (k, v) := by
  obtain ⟨hinv, hmdl⟩ := runOps_model hashF pstep alpha Hp ops s hrun
  obtain ⟨i, hslot⟩ := (hmdl k v).mpr hlast
  exact find_of_hasVal hashF pstep s hinv k v i hslot

/-- Witness for C4 at a concrete input. -/
theorem C4_find_returns_last_insert_witness :
    find (K := Nat) (V := Nat) id linStep
      ⟨[some ⟨0, 42, false⟩, none, none, none, none, none,
        none, none, none, none, none], 0, 1, 0⟩ 0 = some (0, 42) :=
  C4_find_returns_last_insert id linStep linStep_inrange (mkRat 1 2)
    [.insert (0, 42)] _ 0 42 (by decide) (by decide)

/-- C5: `find` scans the probe sequence from `hash(key) % capacity`; it
returns null as soon as a candidate slot is empty, returns the stored entry
as soon as a candidate slot holds a live entry with the key, skips candidate
slots that are non-empty non-matches (tombstones included), and returns null
once all `capacity` candidates are exhausted. -/
theorem C5_find_probe_semantics {K V : Type} [DecidableEq K]
    (hashF : K → Nat) (pstep : Nat → Nat → K → Nat → Nat)
    (st : HashTableState K V) (k : K) :
    (∀ j, j < capacity st →
      slotAt st (probeAt hashF pstep st k j) = none →
      (∀ u, u < j → slotAt st (probeAt hashF pstep st k u) ≠ none ∧
        liveKeyAt st (probeAt hashF pstep st k u) ≠ some k) →
      find hashF pstep st k = none) ∧
    (∀ j, j < capacity st → ∀ hi,
      slotAt st (probeAt hashF pstep st k j) = some hi →
      hi.deleted = false → hi.key = k →
      (∀ u, u < j → slotAt st (probeAt hashF pstep st k u) ≠ none ∧
        liveKeyAt st (probeAt hashF pstep st k u) ≠ some k) →
      find hashF pstep st k = some (hi.key, hi.val)) ∧
    ((∀ j, j < capacity st →
      slotAt st (probeAt hashF pstep st k j) ≠ none ∧
      liveKeyAt st (probeAt hashF pstep st k j) ≠ some k) →
      find hashF pstep st k = none) := by
  have hskip : ∀ u, slotAt st (probeAt hashF pstep st k u) ≠ none →
      liveKeyAt st (probeAt hashF pstep st k u) ≠ some k →
      probeEntry hashF pstep st k u = none := by
    intro u h1 h2
    cases hs : slotAt st (probeAt hashF pstep st k u) with
    | none => exact absurd hs h1
    | some hi =>
      refine probeEntry_of_skip hashF pstep st k u hi hs ?_
      rintro ⟨hd, hk⟩
      refine h2 ?_
      rw [liveKeyAt_eq_some_iff]
      exact ⟨hi.val, by rw [hs, ← hd, ← hk]⟩
  refine ⟨?_, ?_, ?_⟩
  · intro j hj hempty hpre
    have hploc : probeLoc hashF pstep st k =
        some (probeAt hashF pstep st k j) :=
      probeAux_eq_of_first (probeEntry hashF pstep st k) (capacity st) j _
        hj (probeEntry_of_empty hashF pstep st k j hempty)
        (fun u hu => hskip u (hpre u hu).1 (hpre u hu).2)
    simp [find, hploc, hempty]
  · intro j hj hi hs hd hk hpre
    have hploc : probeLoc hashF pstep st k =
        some (probeAt hashF pstep st k j) :=
      probeAux_eq_of_first (probeEntry hashF pstep st k) (capacity st) j _
        hj (probeEntry_of_liveMatch hashF pstep st k j hi hs hd hk)
        (fun u hu => hskip u (hpre u hu).1 (hpre u hu).2)
    simp [find, hploc, hs]
  · intro hall
    have hploc : probeLoc hashF pstep st k = none := by
      rw [probeLoc, probeAux_eq_none_iff]
      intro j h1 h2
      exact hskip j (hall j (by omega)).1 (hall j (by omega)).2
    simp [find, hploc]

/-- Witness for C5: a live match behind a tombstone is returned, an empty
slot behind skipped slots yields null, and a table of tombstones yields null
on exhaustion. -/
theorem C5_find_probe_semantics_witness :
    find (K := Nat) (V := Nat) id linStep
      ⟨[some ⟨0, 1, true⟩, some ⟨11, 2, false⟩, none, none, none, none,
        none, none, none, none, none], 0, 1, 1⟩ 11 = some (11, 2) ∧
    find (K := Nat) (V := Nat) id linStep
      ⟨[some ⟨0, 1, true⟩, some ⟨11, 2, false⟩, none, none, none, none,
        none, none, none, none, none], 0, 1, 1⟩ 22 = none ∧
    find (K := Nat) (V := Nat) id linStep
      ⟨[some ⟨0, 9, true⟩, some ⟨1, 9, true⟩, some ⟨2, 9, true⟩,
        some ⟨3, 9, true⟩, some ⟨4, 9, true⟩, some ⟨5, 9, true⟩,
        some ⟨6, 9, true⟩, some ⟨7, 9, true⟩, some ⟨8, 9, true⟩,
        some ⟨9, 9, true⟩, some ⟨10, 9, true⟩], 0, 0, 11⟩ 5 = none := by
  refine ⟨?_, ?_, ?_⟩
  · exact (C5_find_probe_semantics id linStep
      ⟨[some ⟨0, 1, true⟩, some ⟨11, 2, false⟩, none, none, none, none,
        none, none, none, none, none], 0, 1, 1⟩ 11).2.1 1 (by decide)
      ⟨11, 2, false⟩ (by decide) rfl rfl (by decide)
  · exact (C5_find_probe_semantics id linStep
      ⟨[some ⟨0, 1, true⟩, some ⟨11, 2, false⟩, none, none, none, none,
        none, none, none, none, none], 0, 1, 1⟩ 22).1 2 (by decide)
      (by decide) (by decide)
  · exact (C5_find_probe_semantics id linStep
      ⟨[some ⟨0, 9, true⟩, some ⟨1, 9, true⟩, some ⟨2, 9, true⟩,
        some ⟨3, 9, true⟩, some ⟨4, 9, true⟩, some ⟨5, 9, true⟩,
        some ⟨6, 9, true⟩, some ⟨7, 9, true⟩, some ⟨8, 9, true⟩,
        some ⟨9, 9, true⟩, some ⟨10, 9, true⟩], 0, 0, 11⟩ 5).2.2
      (by decide)

/-- C6: `resize` raises the fatal schedule-exhausted error when no larger
capacity remains; otherwise it advances to the next scheduled capacity over
a fresh all-empty array, reinserts exactly the live entries (probing with
the new capacity), discards all tombstones, and rebuilds the counters:
`elementCount` becomes the number of live entries of the old table and
`deletedCount` becomes 0. -/
theorem C6_resize_spec {K V : Type} [DecidableEq K]
    (hashF : K → Nat) (pstep : Nat → Nat → K → Nat → Nat)
    (Hp : ∀ s m k i, 0 < m → pstep s m k i < m)
    (st : HashTableState K V) (hinv : INV hashF pstep st) :
    (CAPACITIES.length ≤ st.mIndex + 1 →
      resize hashF pstep st = .error .schedule) ∧
    (∀ st', resize hashF pstep st = .ok st' →
      st'.mIndex = st.mIndex + 1 ∧
      st'.table.length = CAPACITIES.getD (st.mIndex + 1) 0 ∧
      st'.deletedCount = 0 ∧
      st'.elementCount = countLive st.table ∧
      (∀ i hi, slotAt st' i = some hi → hi.deleted = false) ∧
      (∀ k v, HasVal st' k v ↔ HasVal st k v)) := by
  constructor
  · intro h
    unfold resize
    rw [if_pos h]
  · intro st' hok
    obtain ⟨hinv', hmidx', hdc', hel', hcd', hhv'⟩ :=
      resize_preserves hashF pstep Hp st st' hinv hok
    refine ⟨hmidx', ?_, hdc', hel', ?_, hhv'⟩
    · have hlen' : st'.table.length = capacity st' := hinv'.1
      rw [hlen']
      unfold capacity
      rw [hmidx']
    · intro i hi hget
      exact countDeleted_zero_no_tombstone st'.table hcd' i hi hget

/-- Witness for C6 at a concrete input: resizing a capacity-11 table holding
one live entry and one tombstone yields the capacity-23 table holding just
the live entry. -/
theorem C6_resize_spec_witness :
    resize (K := Nat) (V := Nat) id linStep
      ⟨[some ⟨0, 1, true⟩, some ⟨1, 2, false⟩, none, none, none, none,
        none, none, none, none, none], 0, 1, 1⟩ =
      .ok ⟨[none, some ⟨1, 2, false⟩, none, none, none, none, none, none,
        none, none, none, none, none, none, none, none, none, none, none,
        none, none, none, none], 1, 1, 0⟩ ∧
    (⟨[none, some ⟨1, 2, false⟩, none, none, none, none, none, none,
        none, none, none, none, none, none, none, none, none, none, none,
        none, none, none, none], 1, 1, 0⟩ : HashTableState Nat Nat).mIndex
      = 0 + 1 ∧
    (⟨[none, some ⟨1, 2, false⟩, none, none, none, none, none, none,
        none, none, none, none, none, none, none, none, none, none, none,
        none, none, none, none], 1, 1, 0⟩ :
        HashTableState Nat Nat).deletedCount = 0 ∧
    (⟨[none, some ⟨1, 2, false⟩, none, none, none, none, none, none,
        none, none, none, none, none, none, none, none, none, none, none,
        none, none, none, none], 1, 1, 0⟩ :
        HashTableState Nat Nat).elementCount =
      countLive [some (⟨0, 1, true⟩ : HashItem Nat Nat),
        some ⟨1, 2, false⟩, none, none, none, none,
        none, none, none, none, none] := by
  have hrun : runOps (K := Nat) (V := Nat) id linStep (mkRat 1 2)
      (initState Nat Nat) [.insert (0, 1), .insert (1, 2), .remove 0] =
      .ok ⟨[some ⟨0, 1, true⟩, some ⟨1, 2, false⟩, none, none, none, none,
        none, none, none, none, none], 0, 1, 1⟩ := by decide
  have hinv := (runOps_model id linStep (mkRat 1 2) linStep_inrange
    _ _ hrun).1
  have hres : resize (K := Nat) (V := Nat) id linStep
      ⟨[some ⟨0, 1, true⟩, some ⟨1, 2, false⟩, none, none, none, none,
        none, none, none, none, none], 0, 1, 1⟩ =
      .ok ⟨[none, some ⟨1, 2, false⟩, none, none, none, none, none, none,
        none, none, none, none, none, none, none, none, none, none, none,
        none, none, none, none], 1, 1, 0⟩ := by decide
  have hspec := (C6_resize_spec id linStep linStep_inrange _ hinv).2 _ hres
  exact ⟨hres, hspec.1, hspec.2.2.1, hspec.2.2.2.1⟩

/-- C7: `remove` on a key with a live entry tombstones exactly that slot,
decrements `elementCount` and increments `deletedCount`; on a key with no
live entry it is a no-op that leaves the whole state unchanged. -/
theorem C7_remove_spec {K V : Type} [DecidableEq K]
    (hashF : K → Nat) (pstep : Nat → Nat → K → Nat → Nat)
    (Hp : ∀ s m k i, 0 < m → pstep s m k i < m)
    (st : HashTableState K V) (k : K) (hinv : INV hashF pstep st) :
    ((∀ v, ¬HasVal st k v) → remove hashF pstep st k = st) ∧
    (∀ loc hi, slotAt st loc = some hi → hi.deleted = false → hi.key = k →
      remove hashF pstep st k =
        { st with
          table := st.table.set loc (some ⟨hi.key, hi.val, true⟩)
          elementCount := st.elementCount - 1
          deletedCount := st.deletedCount + 1 }) := by
  obtain ⟨hlen, hmidx, huniq, hreach, hcl, hcd⟩ := hinv
  have hinv' : INV hashF pstep st := ⟨hlen, hmidx, huniq, hreach, hcl, hcd⟩
  constructor
  · intro habs
    rcases remove_cases hashF pstep Hp st k hinv' with
      ⟨_, heq⟩ | ⟨loc, hi, hs, hdel, hkey, _, _⟩
    · exact heq
    · exfalso
      exact habs hi.val ⟨loc, by rw [hs, ← hdel, ← hkey]⟩
  · intro loc hi hs hdel hkey
    rcases remove_cases hashF pstep Hp st k hinv' with
      ⟨habs, _⟩ | ⟨loc', hi', hs', hdel', hkey', _, heq⟩
    · exfalso
      exact habs hi.val ⟨loc, by rw [hs, ← hdel, ← hkey]⟩
    · have hlloc : liveKeyAt st loc = some k := by
        rw [liveKeyAt_eq_some_iff]
        exact ⟨hi.val, by rw [hs, ← hdel, ← hkey]⟩
      have hlloc' : liveKeyAt st loc' = some k := by
        rw [liveKeyAt_eq_some_iff]
        exact ⟨hi'.val, by rw [hs', ← hdel', ← hkey']⟩
      have hle : loc' = loc := huniq loc' loc k hlloc' hlloc
      subst hle
      rw [hs] at hs'
      injection hs' with hs''
      subst hs''
      exact heq

/-- Witness for C7 at a concrete input: removing an absent key is a no-op
and removing a live key tombstones its slot and adjusts both counters. -/
theorem C7_remove_spec_witness :
    remove (K := Nat) (V := Nat) id linStep
      ⟨[some ⟨0, 1, false⟩, some ⟨1, 2, false⟩, none, none, none, none,
        none, none, none, none, none], 0, 2, 0⟩ 5 =
      ⟨[some ⟨0, 1, false⟩, some ⟨1, 2, false⟩, none, none, none, none,
        none, none, none, none, none], 0, 2, 0⟩ ∧
    remove (K := Nat) (V := Nat) id linStep
      ⟨[some ⟨0, 1, false⟩, some ⟨1, 2, false⟩, none, none, none, none,
        none, none, none, none, none], 0, 2, 0⟩ 0 =
      ⟨[some ⟨0, 1, true⟩, some ⟨1, 2, false⟩, none, none, none, none,
        none, none, none, none, none], 0, 1, 1⟩ := by
  have hrun : runOps (K := Nat) (V := Nat) id linStep (mkRat 1 2)
      (initState Nat Nat) [.insert (0, 1), .insert (1, 2)] =
      .ok ⟨[some ⟨0, 1, false⟩, some ⟨1, 2, false⟩, none, none, none, none,
        none, none, none, none, none], 0, 2, 0⟩ := by decide
  obtain ⟨hinv, hmdl⟩ := runOps_model id linStep (mkRat 1 2)
    linStep_inrange _ _ hrun
  constructor
  · refine (C7_remove_spec id linStep linStep_inrange _ 5 hinv).1 ?_
    intro v hv
    have h := (hmdl 5 v).mp hv
    have h2 : mdl [Op.insert ((0 : Nat), (1 : Nat)), Op.insert (1, 2)]
        (5 : Nat) = none := by decide
    rw [h2] at h
    cases h
  · have h := (C7_remove_spec id linStep linStep_inrange _ 0 hinv).2 0
      ⟨0, 1, false⟩ (by decide) rfl rfl
    exact h.trans (by decide)

/-- C1 (evaluation of the code at the failing input): key 22 hashes to
slot 0, which holds a tombstone; the claim (and the dead branch at
`src/ht.h:221-226`) expects the new entry to reuse slot 0 with
`deletedCount` dropping to 0, but `probe` (`src/ht.h:295`) skips the
tombstone, so the entry lands in slot 2, slot 0 keeps its tombstone, and
`deletedCount` stays 1. -/
theorem C1_insert_skips_tombstone :
    runOps (K := Nat) (V := Nat) id linStep (mkRat 9 10) (initState Nat Nat)
      [.insert (0, 1), .insert (11, 2), .remove 0, .insert (22, 3)] =
      .ok ⟨[some ⟨0, 1, true⟩, some ⟨11, 2, false⟩, some ⟨22, 3, false⟩,
        none, none, none, none, none, none, none, none], 0, 2, 1⟩ := by
  decide

/-- C2 (evaluation of the code at the failing input): after inserting key 0,
the assignment `ht[1] = 7` — which per `src/ht.h:144` goes through `at` —
throws `out_of_range("Bad key")` instead of creating the binding, as does
`at(1)` itself; the repository's own test expects creation. -/
theorem C2_bracket_throws_on_missing :
    runOps (K := Nat) (V := Nat) id linStep (mkRat 1 2) (initState Nat Nat)
      [.insert (0, 10)] =
      .ok ⟨[some ⟨0, 10, false⟩, none, none, none, none, none,
        none, none, none, none, none], 0, 1, 0⟩ ∧
    bracketAssign (K := Nat) (V := Nat) id linStep
      ⟨[some ⟨0, 10, false⟩, none, none, none, none, none,
        none, none, none, none, none], 0, 1, 0⟩ 1 7 = .error .badKey ∧
    atVal (K := Nat) (V := Nat) id linStep
      ⟨[some ⟨0, 10, false⟩, none, none, none, none, none,
        none, none, none, none, none], 0, 1, 0⟩ 1 = .error .badKey := by
  decide

/-- C3 counterexample: after the final insert the tombstone-inclusive load
factor is `(2 + 3)/11 ≥ 2/5`, yet `mIndex` is still 0 — no resize was ever
triggered, because the code's check `elementCount_/CAPACITIES[mIndex_] >
resizeAlpha_` (`src/ht.h:230-231`) ignores tombstones and is strict. -/
theorem C3_counterexample :
    runOps (K := Nat) (V := Nat) id linStep (mkRat 2 5) (initState Nat Nat)
      [.insert (0, 0), .insert (1, 0), .insert (2, 0), .insert (3, 0),
       .remove 0, .remove 1, .remove 2, .insert (4, 0)] =
      .ok ⟨[some ⟨0, 0, true⟩, some ⟨1, 0, true⟩, some ⟨2, 0, true⟩,
        some ⟨3, 0, false⟩, some ⟨4, 0, false⟩, none, none, none, none,
        none, none], 0, 2, 3⟩ ∧
    mkRat 2 5 ≤ loadFactor (2 + 3) 11 := by
  decide

/-- C3 (amended): an insert triggers a resize exactly when the live-only
load factor `elementCount/capacity` strictly exceeds the threshold;
tombstones play no part in the decision. A resize is observable as the
schedule index advancing by one, and when the check does not fire the
insert returns the placement state unchanged. -/
theorem C3_resize_trigger {K V : Type} [DecidableEq K]
    (hashF : K → Nat) (pstep : Nat → Nat → K → Nat → Nat) (alpha : ℚ)
    (st st1 st' : HashTableState K V) (p : K × V)
    (hpl : insertPlace hashF pstep st p = .ok st1)
    (hok : insert hashF pstep alpha st p = .ok st') :
    (st'.mIndex = st.mIndex + 1 ↔
      loadFactor st1.elementCount (capacity st1) > alpha) ∧
    (st'.mIndex = st.mIndex → st' = st1) := by
  have hins : insert hashF pstep alpha st p =
      if loadFactor st1.elementCount (capacity st1) > alpha then
        resize hashF pstep st1 else .ok st1 := by
    unfold insert
    rw [hpl]
  have hm1 : st1.mIndex = st.mIndex :=
    insertPlace_mIndex hashF pstep st st1 p hpl
  by_cases htr : loadFactor st1.elementCount (capacity st1) > alpha
  · rw [hins, if_pos htr] at hok
    have hmr := resize_mIndex hashF pstep st1 st' hok
    exact ⟨⟨fun _ => htr, fun _ => by omega⟩, fun h => by omega⟩
  · rw [hins, if_neg htr] at hok
    injection hok with hok'
    subst hok'
    exact ⟨⟨fun h => by omega, fun h => absurd h htr⟩, fun _ => rfl⟩

/-- Witness for C3's amended claim at a concrete input (threshold 1, one
insert into the fresh table: the check does not fire and the index does not
advance). -/
theorem C3_resize_trigger_witness :
    (⟨[some ⟨0, 5, false⟩, none, none, none, none, none, none, none, none,
        none, none], 0, 1, 0⟩ : HashTableState Nat Nat).mIndex =
      (initState Nat Nat).mIndex + 1 ↔
    loadFactor
      (⟨[some ⟨0, 5, false⟩, none, none, none, none, none, none, none, none,
        none, none], 0, 1, 0⟩ : HashTableState Nat Nat).elementCount
      (capacity (⟨[some ⟨0, 5, false⟩, none, none, none, none, none, none,
        none, none, none, none], 0, 1, 0⟩ : HashTableState Nat Nat)) >
      mkRat 1 1 :=
  (C3_resize_trigger id linStep (mkRat 1 1) (initState Nat Nat)
    ⟨[some ⟨0, 5, false⟩, none, none, none, none, none, none, none, none,
      none, none], 0, 1, 0⟩
    ⟨[some ⟨0, 5, false⟩, none, none, none, none, none, none, none, none,
      none, none], 0, 1, 0⟩
    (0, 5) (by decide) (by decide)).1

/-- C8 counterexample: with threshold `2/5 < 1` and the schedule untouched,
eleven insert/remove cycles fill every slot with a tombstone (the load
check never counts them and insert never reuses them), and the next insert
of a fresh key exhausts its probe sequence and throws `HashTable full`. -/
theorem C8_counterexample :
    runOps (K := Nat) (V := Nat) id linStep (mkRat 2 5) (initState Nat Nat)
      [.insert (0, 0), .remove 0, .insert (1, 0), .remove 1,
       .insert (2, 0), .remove 2, .insert (3, 0), .remove 3,
       .insert (4, 0), .remove 4, .insert (5, 0), .remove 5,
       .insert (6, 0), .remove 6, .insert (7, 0), .remove 7,
       .insert (8, 0), .remove 8, .insert (9, 0), .remove 9,
       .insert (10, 0), .remove 10, .insert (11, 0)] = .error .full ∧
    mkRat 2 5 < 1 := by
  decide

/-- C8 (amended): for sequences of inserts only (no removes), a growth
threshold below 1 keeps an empty slot available at every insert, so with
the linear prober the table-full error is never thrown; the run can at
worst abort with the schedule-exhausted error inside `resize`. -/
theorem C8_no_full_without_removes {K V : Type} [DecidableEq K]
    (hashF : K → Nat) (alpha : ℚ) (halpha : alpha < 1)
    (ops : List (Op K V)) (hnorem : ∀ op ∈ ops, ∀ k0, op ≠ Op.remove k0) :
    runOps hashF linStep alpha (initState K V) ops ≠ .error .full := by
  refine runOps_inserts_not_full hashF linStep alpha linStep_inrange
    (linStep_covAll hashF) halpha ops hnorem (initState K V)
    (initState_INV hashF linStep) ?_ ?_
  · show countDeleted (List.replicate (CAPACITIES.getD 0 0)
      (none : Option (HashItem K V))) = 0
    rw [countDeleted_replicate]
  · show (0 : Nat) < capacity (initState K V)
    show (0 : Nat) < CAPACITIES.getD 0 0
    decide

/-- Witness for C8's amended claim at a concrete input. -/
theorem C8_no_full_without_removes_witness :
    runOps (K := Nat) (V := Nat) id linStep (mkRat 1 2) (initState Nat Nat)
      [.insert (3, 9)] ≠ .error .full :=
  C8_no_full_without_removes id (mkRat 1 2) (by decide) [.insert (3, 9)]
    (fun op hop k0 h => by
      rw [List.mem_singleton] at hop
      subst hop
      cases h)

/-- C9: for every key (through any secondary hash) and every table size, the
double-hash step `modulus - (h2(key) % modulus)` computed by
`DoubleHashProber::init` is at least 1, never 0. -/
theorem C9_dhstep_never_zero {K : Type} (h2 : K → Nat) (k : K) (ts : Nat) :
    1 ≤ dhStepOf (h2 k) ts :=
  dhStepOf_pos (h2 k) ts

/-- C10: during `resize`, with the linear prober — or with the double-hash
prober, whose step is positive and below the prime new capacity — every
live entry's reinsertion probe reaches an empty slot of the strictly larger
new table before exhausting, so the `table_[npos]` out-of-bounds write of
`src/ht.h:323` is never performed. -/
theorem C10_resize_never_oob {K V : Type} [DecidableEq K]
    (hashF h2 : K → Nat) (st : HashTableState K V)
    (hlen : st.table.length = capacity st)
    (hmidx : st.mIndex < CAPACITIES.length) :
    resize hashF linStep st ≠ .error .oob ∧
    (Nat.Prime (CAPACITIES.getD (st.mIndex + 1) 0) →
      resize hashF (dhProbeStep h2) st ≠ .error .oob) := by
  constructor
  · refine resize_not_oob hashF linStep linStep_inrange st hlen hmidx ?_
    intro k t ht
    have hm' : 0 < CAPACITIES.getD (st.mIndex + 1) 0 := by omega
    exact linStep_cov _ _ t hm' ht
  · intro hprime
    refine resize_not_oob hashF (dhProbeStep h2)
      (fun s m k i hm => Nat.mod_lt _ hm) st hlen hmidx ?_
    intro k t ht
    have h7 : 7 < CAPACITIES.getD (st.mIndex + 1) 0 := by
      have hlt : st.mIndex + 1 < CAPACITIES.length := by
        by_contra hcon
        have hz : CAPACITIES.getD (st.mIndex + 1) 0 = 0 := by
          rw [List.getD_eq_getElem?_getD, List.getElem?_eq_none (by omega)]
          rfl
        omega
      exact CAPACITIES_gt7 (st.mIndex + 1) hlt
    exact dh_cov (CAPACITIES.getD (st.mIndex + 1) 0)
      (hashF k % CAPACITIES.getD (st.mIndex + 1) 0)
      (dhStepOf (h2 k) (CAPACITIES.getD (st.mIndex + 1) 0)) t hprime
      (dhStepOf_pos _ _) (dhStepOf_lt _ _ h7) ht

/-- Witness for C10 at a concrete input (the fresh table; new capacity 23
is prime). -/
theorem C10_resize_never_oob_witness :
    resize (K := Nat) (V := Nat) id linStep (initState Nat Nat) ≠
      .error .oob ∧
    resize (K := Nat) (V := Nat) id (dhProbeStep id) (initState Nat Nat) ≠
      .error .oob := by
  have h := C10_resize_never_oob id id (initState Nat Nat)
    (by decide) (by decide)
  have hp : CAPACITIES.getD ((initState Nat Nat).mIndex + 1) 0 = 23 := by
    decide
  exact ⟨h.1, h.2 (by rw [hp]; norm_num)⟩

end HTVerify
